import Mathlib

/-!
# Verification of the n8n ZIP-to-GitHub workflow core

Shallow embedding of the two core modules of the repository:

* `src/unzip-code.js` — the `ZipProcessor` class (name sanitizing, MIME
  detection, statistics, file-structure building);
* the GitHub agent module (`GitHubAgent` class) — input validation,
  repository-readiness polling, file filtering/sorting, batching, the
  per-file retry wrapper, batch processing, result aggregation, the
  orchestrating `createRepositoryAndUploadFiles`, and the rate limiter.

Remote I/O (the GitHub API) is modelled by explicit outcome oracles:
a remote call is a value of `Except JsError α` supplied by the
environment, exactly at the points where the JavaScript code performs
an `await`ed API call.  Thrown JavaScript errors are modelled as the
`Except.error` branch.  JavaScript millisecond timestamps are `Nat`.
-/

/-- A thrown JavaScript `Error` as produced by `makeGitHubApiCall`:
a message plus the optional HTTP `status` field the agent attaches. -/
structure JsError where
  message : String
  status : Option Nat
deriving Repr, DecidableEq

/-! ## Retry wrapper (`GitHubAgent.uploadSingleFileWithRetry`)

The JavaScript loop is

```
for (let attempt = 1; attempt <= this.maxRetries; attempt++) {
  try { return await this.uploadSingleFile(...); }
  catch (error) {
    lastError = error;
    if (attempt < this.maxRetries) {
      const delay = this.retryDelay * Math.pow(2, attempt - 1);
      await this.delay(delay);
    }
  }
}
throw lastError;
```

The attempt outcomes are supplied by an oracle `attemptResult : Nat →
Except JsError Unit` (indexed by the 1-based attempt number).  The
embedding returns the surfaced result, the number of attempts actually
performed, and the list of backoff delays slept (the `j`-th element is
the delay inserted before attempt `j+2`). -/

/-- Recursion on the number of attempts remaining; `attempt` is the
1-based index of the next attempt.  When no attempts remain at all
(`maxRetries = 0`), the JavaScript code throws `undefined`; that edge is
modelled as an error with an empty message. -/
def retryAux (retryDelay : Nat) (attemptResult : Nat → Except JsError Unit)
    (attempt : Nat) : Nat → Except JsError Unit × Nat × List Nat
  | 0 => (.error ⟨"", none⟩, 0, [])
  | remaining + 1 =>
    match attemptResult attempt with
    | .ok u => (.ok u, 1, [])
    | .error e =>
      if remaining = 0 then
        (.error e, 1, [])
      else
        let d := retryDelay * 2 ^ (attempt - 1)
        let (res, n, ds) := retryAux retryDelay attemptResult (attempt + 1) remaining
        (res, n + 1, d :: ds)

/-- `uploadSingleFileWithRetry`, starting at attempt 1 with `maxRetries`
attempts available. -/
def uploadSingleFileWithRetry (retryDelay maxRetries : Nat)
    (attemptResult : Nat → Except JsError Unit) :
    Except JsError Unit × Nat × List Nat :=
  retryAux retryDelay attemptResult 1 maxRetries

/-- Number of attempts performed by the retry wrapper. -/
def retryAttempts (retryDelay maxRetries : Nat)
    (attemptResult : Nat → Except JsError Unit) : Nat :=
  (uploadSingleFileWithRetry retryDelay maxRetries attemptResult).2.1

/-- If every attempt fails, the wrapper makes exactly `maxRetries`
attempts, sleeps `retryDelay * 2 ^ (k - 2)` before attempt `k` (k ≥ 2),
and surfaces the error observed on the final attempt, unchanged. -/
theorem retryAux_all_fail (retryDelay : Nat) (es : Nat → JsError) :
    ∀ (remaining attempt : Nat), 1 ≤ remaining → 1 ≤ attempt →
      retryAux retryDelay (fun k => .error (es k)) attempt remaining =
        (.error (es (attempt + remaining - 1)), remaining,
          (List.range (remaining - 1)).map
            (fun j => retryDelay * 2 ^ (attempt - 1 + j))) := by
  intro remaining
  induction remaining with
  | zero => intro attempt h; omega
  | succ r ih =>
    intro attempt _ hatt
    by_cases hr : r = 0
    · subst hr
      simp [retryAux]
    · have h1 : 1 ≤ r := Nat.one_le_iff_ne_zero.mpr hr
      have hrec := ih (attempt + 1) h1 (by omega)
      simp only [retryAux, hr, if_false, hrec]
      have harg : attempt + 1 + r - 1 = attempt + (r + 1) - 1 := by omega
      rw [harg]
      have hrange : List.range (r + 1 - 1) =
          0 :: (List.range (r - 1)).map (· + 1) := by
        obtain ⟨r', rfl⟩ : ∃ r', r = r' + 1 := ⟨r - 1, by omega⟩
        simp [List.range_succ_eq_map]
      rw [hrange]
      simp only [List.map_cons, List.map_map, Prod.mk.injEq, true_and]
      congr 1
      simp only [List.map_inj_left, Function.comp_apply, List.mem_range]
      intro j hj
      congr 2
      omega

/-- With at least one attempt remaining, the wrapper always performs at
least one attempt. -/
theorem retryAux_attempts_pos (rd : Nat) (o : Nat → Except JsError Unit)
    (a r : Nat) : 1 ≤ (retryAux rd o a (r + 1)).2.1 := by
  cases h : o a with
  | ok u => simp [retryAux, h]
  | error e =>
    by_cases hr : r = 0
    · simp [retryAux, h, hr]
    · simp only [retryAux, h, hr, if_false]
      omega

/-- Unfolds one failing attempt: when the current attempt errors and at
least one more attempt remains, the attempt counter is one plus the
counter of the remaining run. -/
theorem retryAux_attempts_succ (rd : Nat) (o : Nat → Except JsError Unit)
    (a r : Nat) (e : JsError) (ho : o a = .error e) (hr : r ≠ 0) :
    (retryAux rd o a (r + 1)).2.1 = (retryAux rd o (a + 1) r).2.1 + 1 := by
  rcases hv : retryAux rd o (a + 1) r with ⟨res, n, ds⟩
  simp only [retryAux, ho, hr, if_false, hv]

/-- C4 (amended part): an operation that fails on every attempt is tried
exactly `maxRetries` times, the delay inserted before attempt `k` (k ≥ 2)
is `retryDelay * 2 ^ (k - 2)` (the `j`-th recorded delay, `j = k - 2`,
equals `retryDelay * 2 ^ j`), and the error surfaced at the end is the
failure observed on the last attempt — unchanged, with no
exhausted-retries tagging. -/
theorem C4_retry_exhaustion (retryDelay maxRetries : Nat) (es : Nat → JsError)
    (h : 1 ≤ maxRetries) :
    uploadSingleFileWithRetry retryDelay maxRetries (fun k => .error (es k)) =
      (.error (es maxRetries), maxRetries,
        (List.range (maxRetries - 1)).map (fun j => retryDelay * 2 ^ j)) := by
  unfold uploadSingleFileWithRetry
  rw [retryAux_all_fail retryDelay es maxRetries 1 h le_rfl]
  have e1 : 1 + maxRetries - 1 = maxRetries := by omega
  simp [e1]

/-- C4 counterexample: after all 3 attempts fail with the same network
error, the wrapper surfaces that error *identically*: message and status
are unchanged, so the last observed failure is re-raised without any
exhausted-retries tag (the claim's tagging does not happen). -/
theorem C4_counterexample :
    uploadSingleFileWithRetry 1000 3 (fun _ => .error ⟨"socket hang up", none⟩) =
      (.error ⟨"socket hang up", none⟩, 3, [1000, 2000]) := rfl

/-- C4 witness: instantiating the exhaustion theorem at `retryDelay = 1000`,
`maxRetries = 3` and a constant server-error oracle. -/
theorem C4_witness :
    uploadSingleFileWithRetry 1000 3 (fun _ => .error ⟨"timeout", some 500⟩) =
      (.error ⟨"timeout", some 500⟩, 3, [1000, 2000]) := by
  rw [C4_retry_exhaustion 1000 3 (fun _ => ⟨"timeout", some 500⟩) (by omega)]
  rfl

/-- C3 counterexample: a call whose first attempt fails with HTTP 401
(`AuthError`) is *not* surfaced immediately: with `maxRetries = 3` the
wrapper performs all 3 attempts (the claim requires exactly 1). -/
theorem C3_counterexample :
    retryAttempts 1000 3 (fun _ => .error ⟨"Bad credentials", some 401⟩) = 3 := rfl

/-- C3 (amended): the retry loop never inspects the error: a first-attempt
failure carrying *any* error — including an authorization failure with
status 401/403 — triggers the backoff-and-retry loop, so at least a second
attempt is performed whenever `maxRetries ≥ 2`. -/
theorem C3_auth_errors_are_retried (retryDelay maxRetries : Nat)
    (oracle : Nat → Except JsError Unit) (e : JsError)
    (h1 : oracle 1 = .error e) (h2 : 2 ≤ maxRetries) :
    2 ≤ retryAttempts retryDelay maxRetries oracle := by
  obtain ⟨m, rfl⟩ : ∃ m, maxRetries = m + 2 := ⟨maxRetries - 2, by omega⟩
  unfold retryAttempts uploadSingleFileWithRetry
  have hstep := retryAux_attempts_succ retryDelay oracle 1 (m + 1) e h1 (by omega)
  have hpos := retryAux_attempts_pos retryDelay oracle (1 + 1) m
  show 2 ≤ (retryAux retryDelay oracle 1 (m + 1 + 1)).2.1
  omega

/-- C3 witness: a 403-status rate-limit-like auth failure on attempt 1
with `maxRetries = 2` leads to a second attempt. -/
theorem C3_witness :
    2 ≤ retryAttempts 500 2 (fun _ => .error ⟨"Forbidden", some 403⟩) :=
  C3_auth_errors_are_retried 500 2 (fun _ => .error ⟨"Forbidden", some 403⟩)
    ⟨"Forbidden", some 403⟩ rfl (by omega)

/-! ## File records and the filter/sort/batch pipeline
(`GitHubAgent.filterAndSortFiles`, `GitHubAgent.createBatches`,
`GitHubAgent.processBatch`, `GitHubAgent.uploadFilesToRepository`)

A `FileRec` carries the fields of the extracted-file objects the agent
reads: `path`, `name`, `content`, `size`, `directory`. -/

/-- An extracted file as consumed by the GitHub agent. -/
structure FileRec where
  path : String
  name : String
  content : String
  size : Nat
  directory : String
  mimeType : String
deriving Repr, DecidableEq

/-- `String.toLowerCase()` restricted to ASCII, applied characterwise
(all strings manipulated by the agent are ASCII). -/
def lowerStr (s : String) : String := String.mk (s.data.map Char.toLower)

/-- Index of the last `'.'` in a character list (JS `lastIndexOf('.')`),
`none` when absent (JS `-1`). -/
def lastDotPosAux : List Char → Nat → Option Nat
  | [], _ => none
  | c :: rest, i =>
    match lastDotPosAux rest (i + 1) with
    | some j => some j
    | none => if c = '.' then some i else none

/-- `lastIndexOf('.')` over a whole string's characters. -/
def lastDotPos (l : List Char) : Option Nat := lastDotPosAux l 0

/-- `name.substring(name.lastIndexOf('.')).toLowerCase()` — the
extension *including* the dot, as computed by `filterAndSortFiles`.
When there is no dot, `substring(-1)` clamps to 0 and yields the whole
name. -/
def extWithDot (name : String) : String :=
  match lastDotPos name.data with
  | none => lowerStr name
  | some i => lowerStr (String.mk (name.data.drop i))

/-- `s.substring(s.lastIndexOf('.') + 1).toLowerCase()` — the extension
*after* the dot, as computed by `detectMimeType` and
`generateStatistics`.  With no dot, `substring(0)` yields the whole
string. -/
def extAfterDot (s : String) : String :=
  match lastDotPos s.data with
  | none => lowerStr s
  | some i => lowerStr (String.mk (s.data.drop (i + 1)))

/-- Code-point lexicographic `≤` on character lists; `localeCompare` in
the sort comparator is modelled as code-point order (the names involved
are plain ASCII). -/
def charListLe : List Char → List Char → Bool
  | [], _ => true
  | _ :: _, [] => false
  | a :: as, b :: bs => if a = b then charListLe as bs else decide (a < b)

/-- String `≤` via code points. -/
def strLe (a b : String) : Bool := charListLe a.data b.data

/-- The sort comparator of `filterAndSortFiles`: first by `directory`,
then by `name`. -/
def fileLe (a b : FileRec) : Bool :=
  if a.directory = b.directory then strLe a.name b.name
  else strLe a.directory b.directory

/-- Insertion step of a stable sort by `fileLe`. -/
def insertFile (f : FileRec) : List FileRec → List FileRec
  | [] => [f]
  | g :: rest => if fileLe g f then g :: insertFile f rest else f :: g :: rest

/-- `Array.prototype.sort` with the `(directory, name)` comparator,
modelled as insertion sort (a stable comparison sort). -/
def sortFiles : List FileRec → List FileRec
  | [] => []
  | f :: rest => insertFile f (sortFiles rest)

/-- Filter options of `uploadFilesToRepository` (subset of `options`). -/
structure FilterOptions where
  maxFileSize : Option Nat := none
  allowedExtensions : Option (List String) := none
deriving Repr

/-- The size filter: applied only when `options.maxFileSize` is truthy
(in particular a present-but-zero limit is *falsy* in JS and disables
the filter). -/
def sizeFiltered (files : List FileRec) (o : FilterOptions) : List FileRec :=
  match o.maxFileSize with
  | some m => if m = 0 then files else files.filter (fun f => f.size ≤ m)
  | none => files

/-- The extension filter: applied whenever `options.allowedExtensions`
is present (a present empty array is truthy in JS and excludes every
file). -/
def extFiltered (files : List FileRec) (o : FilterOptions) : List FileRec :=
  match o.allowedExtensions with
  | some exts => files.filter (fun f => exts.contains (extWithDot f.name))
  | none => files

/-- `GitHubAgent.filterAndSortFiles`: size filter, then extension
filter, then sort by `(directory, name)`. -/
def filterAndSortFiles (files : List FileRec) (o : FilterOptions) : List FileRec :=
  sortFiles (extFiltered (sizeFiltered files o) o)

/-- `GitHubAgent.createBatches`: contiguous slices of `batchSize`.
(The JS loop `for (i = 0; i < n; i += batchSize)` does not terminate
for `batchSize = 0` on a non-empty list; that unreachable configuration
is mapped to `[]`.) -/
def createBatchesAux {α : Type} (batchSize : Nat) : Nat → List α → List (List α)
  | _, [] => []
  | 0, _ :: _ => []
  | fuel + 1, f :: rest =>
    if batchSize = 0 then []
    else (f :: rest).take batchSize ::
      createBatchesAux batchSize fuel ((f :: rest).drop batchSize)
def createBatches {α : Type} (files : List α) (batchSize : Nat) : List (List α) :=
  createBatchesAux batchSize files.length files

/-- One entry of `results.details`. -/
structure UploadDetail where
  path : String
  status : String
  size : Option Nat
  error : Option String
deriving Repr, DecidableEq

/-- The `results` accumulator of `uploadFilesToRepository`. -/
structure UploadResults where
  successCount : Nat
  failedCount : Nat
  skippedCount : Nat
  details : List UploadDetail
  totalSize : Nat
deriving Repr, DecidableEq

/-- The initial `results` object. -/
def initResults : UploadResults := ⟨0, 0, 0, [], 0⟩

/-- The per-file branch of `processBatch`'s result aggregation. -/
def applyOutcome (r : UploadResults) (file : FileRec) :
    Except JsError Unit → UploadResults
  | .ok _ =>
    { r with
      successCount := r.successCount + 1
      totalSize := r.totalSize + file.size
      details := r.details ++ [⟨file.path, "success", some file.size, none⟩] }
  | .error e =>
    { r with
      failedCount := r.failedCount + 1
      details := r.details ++ [⟨file.path, "failed", none, some e.message⟩] }

/-- `GitHubAgent.processBatch`: every file of the batch is settled
individually (`Promise.all` over catch-wrapped promises preserves batch
order), then folded into the accumulator. -/
def processBatch (terminal : FileRec → Except JsError Unit)
    (batch : List FileRec) (r : UploadResults) : UploadResults :=
  batch.foldl (fun acc f => applyOutcome acc f (terminal f)) r

/-- `GitHubAgent.uploadFilesToRepository`: filter and sort, partition
into batches, process batches sequentially.  The per-file terminal
outcome goes through `uploadSingleFileWithRetry`, whose attempt
outcomes are supplied by the oracle `attempt`.  The second component
records every file for which an upload was attempted at all (the files
handed to `processBatch`). -/
def uploadFilesToRepository (batchSize retryDelay maxRetries : Nat)
    (attempt : FileRec → Nat → Except JsError Unit)
    (files : List FileRec) (o : FilterOptions) :
    UploadResults × List FileRec :=
  let filtered := filterAndSortFiles files o
  let batches := createBatches filtered batchSize
  let terminal := fun f =>
    (uploadSingleFileWithRetry retryDelay maxRetries (attempt f)).1
  (batches.foldl (fun r b => processBatch terminal b r) initResults,
    batches.flatten)

/-! ## Claim C6: per-file failure isolation, concrete 7-file scenario -/

/-- A root-level file: `path = name`, empty `directory`. -/
def mkFile (p : String) (sz : Nat) : FileRec := ⟨p, p, "", sz, "", ""⟩

/-- Seven root-level files, already in `(directory, name)` order. -/
def demoFiles : List FileRec :=
  [mkFile "a.txt" 1, mkFile "b.txt" 1, mkFile "c.txt" 1, mkFile "d.txt" 1,
   mkFile "e.txt" 1, mkFile "f.txt" 1, mkFile "g.txt" 1]

/-- Attempt oracle: the 5th file in sorted order (`e.txt`) fails every
attempt; every other upload succeeds on its first attempt. -/
def demoAttempt (f : FileRec) (_k : Nat) : Except JsError Unit :=
  if f.name = "e.txt" then .error ⟨"ECONNRESET", none⟩ else .ok ()

/-- C6: publishing the 7 files with `batchSize = 3` forms batches of
sizes `[3, 3, 1]`; with the 5th sorted file failing all its retry
attempts and the rest succeeding, the aggregated result reports
`successCount = 6`, `failedCount = 1`, `skippedCount = 0` — the failing
file aborts neither its own batch nor the following ones. -/
theorem C6_batch_failure_isolation :
    (createBatches (filterAndSortFiles demoFiles {}) 3).map List.length
        = [3, 3, 1]
    ∧ (uploadFilesToRepository 3 1000 3 demoAttempt demoFiles {}).1.successCount = 6
    ∧ (uploadFilesToRepository 3 1000 3 demoAttempt demoFiles {}).1.failedCount = 1
    ∧ (uploadFilesToRepository 3 1000 3 demoAttempt demoFiles {}).1.skippedCount = 0 := by
  decide

/-! ## Claim C1: what happens to filter-excluded files -/

/-- `applyOutcome` never touches `skippedCount`. -/
theorem applyOutcome_skipped (r : UploadResults) (f : FileRec)
    (out : Except JsError Unit) :
    (applyOutcome r f out).skippedCount = r.skippedCount := by
  cases out <;> rfl

/-- `processBatch` never touches `skippedCount`. -/
theorem processBatch_skipped (t : FileRec → Except JsError Unit) :
    ∀ (batch : List FileRec) (r : UploadResults),
      (processBatch t batch r).skippedCount = r.skippedCount := by
  intro batch
  induction batch with
  | nil => intro r; rfl
  | cons f rest ih =>
    intro r
    show (processBatch t rest (applyOutcome r f (t f))).skippedCount
        = r.skippedCount
    rw [ih, applyOutcome_skipped]

/-- Every detail entry `applyOutcome` adds has status `success` or
`failed`. -/
theorem applyOutcome_details (r : UploadResults) (f : FileRec)
    (out : Except JsError Unit) :
    ∀ d ∈ (applyOutcome r f out).details,
      d ∈ r.details ∨ d.status = "success" ∨ d.status = "failed" := by
  cases out with
  | ok u =>
    intro d hd
    rcases List.mem_append.mp hd with h | h
    · exact Or.inl h
    · simp at h; subst h; right; left; rfl
  | error e =>
    intro d hd
    rcases List.mem_append.mp hd with h | h
    · exact Or.inl h
    · simp at h; subst h; right; right; rfl

/-- Every detail entry `processBatch` adds has status `success` or
`failed`. -/
theorem processBatch_details (t : FileRec → Except JsError Unit) :
    ∀ (batch : List FileRec) (r : UploadResults),
      ∀ d ∈ (processBatch t batch r).details,
        d ∈ r.details ∨ d.status = "success" ∨ d.status = "failed" := by
  intro batch
  induction batch with
  | nil => intro r d hd; exact Or.inl hd
  | cons f rest ih =>
    intro r d hd
    have hstep : d ∈ (applyOutcome r f (t f)).details ∨
        d.status = "success" ∨ d.status = "failed" :=
      ih (applyOutcome r f (t f)) d hd
    rcases hstep with h | h
    · exact applyOutcome_details r f (t f) d h
    · exact Or.inr h

/-- Folding `processBatch` over the batch list preserves
`skippedCount`. -/
theorem foldl_processBatch_skipped (t : FileRec → Except JsError Unit) :
    ∀ (bs : List (List FileRec)) (r : UploadResults),
      (bs.foldl (fun r b => processBatch t b r) r).skippedCount
        = r.skippedCount := by
  intro bs
  induction bs with
  | nil => intro r; rfl
  | cons b rest ih =>
    intro r
    show (rest.foldl (fun r b => processBatch t b r)
        (processBatch t b r)).skippedCount = r.skippedCount
    rw [ih, processBatch_skipped]

/-- All detail entries produced by the batch fold have status `success`
or `failed`. -/
theorem foldl_processBatch_details (t : FileRec → Except JsError Unit) :
    ∀ (bs : List (List FileRec)) (r : UploadResults),
      ∀ d ∈ (bs.foldl (fun r b => processBatch t b r) r).details,
        d ∈ r.details ∨ d.status = "success" ∨ d.status = "failed" := by
  intro bs
  induction bs with
  | nil => intro r d hd; exact Or.inl hd
  | cons b rest ih =>
    intro r d hd
    have hstep := ih (processBatch t b r) d hd
    rcases hstep with h | h
    · exact processBatch_details t b r d h
    · exact Or.inr h

/-- The concatenation of the batches is contained in the batched list. -/
theorem createBatchesAux_flatten_subset {α : Type} (bs : Nat) :
    ∀ (fuel : Nat) (l : List α), (createBatchesAux bs fuel l).flatten ⊆ l := by
  intro fuel
  induction fuel with
  | zero => intro l; cases l <;> simp [createBatchesAux]
  | succ n ih =>
    intro l
    cases l with
    | nil => simp [createBatchesAux]
    | cons f rest =>
      by_cases hbs : bs = 0
      · simp [createBatchesAux, hbs]
      · simp only [createBatchesAux, hbs, if_false, List.flatten_cons]
        intro x hx
        rcases List.mem_append.mp hx with h | h
        · exact List.take_subset _ _ h
        · exact List.drop_subset _ _ (ih _ h)

/-- C1 (amended): the uploader silently drops filter-excluded files:
`skippedCount` is always 0, every `details` entry has status `success`
or `failed` (never `skipped`), and an upload is attempted only for
files that survived the Step-1 filter — so excluded files are indeed
never attempted, but they are not counted or reported either. -/
theorem C1_skipped_never_counted (batchSize retryDelay maxRetries : Nat)
    (attempt : FileRec → Nat → Except JsError Unit)
    (files : List FileRec) (o : FilterOptions) :
    (uploadFilesToRepository batchSize retryDelay maxRetries attempt files o).1.skippedCount = 0
    ∧ (∀ d ∈ (uploadFilesToRepository batchSize retryDelay maxRetries attempt files o).1.details,
        d.status = "success" ∨ d.status = "failed")
    ∧ (∀ f ∈ (uploadFilesToRepository batchSize retryDelay maxRetries attempt files o).2,
        f ∈ filterAndSortFiles files o) := by
  refine ⟨?_, ?_, ?_⟩
  · rw [show (uploadFilesToRepository batchSize retryDelay maxRetries attempt files o).1.skippedCount
        = ((createBatches (filterAndSortFiles files o) batchSize).foldl
            (fun r b => processBatch
              (fun f => (uploadSingleFileWithRetry retryDelay maxRetries (attempt f)).1) b r)
            initResults).skippedCount from rfl]
    rw [foldl_processBatch_skipped]
    rfl
  · intro d hd
    have hstep := foldl_processBatch_details
      (fun f => (uploadSingleFileWithRetry retryDelay maxRetries (attempt f)).1)
      (createBatches (filterAndSortFiles files o) batchSize) initResults d hd
    rcases hstep with h | h
    · cases h
    · exact h
  · intro f hf
    exact createBatchesAux_flatten_subset batchSize _ _ hf

/-- A file excluded by the size filter in the C1 scenarios. -/
def bigFile : FileRec := ⟨"big.bin", "big.bin", "", 10, "", ""⟩

/-- A file passing the size filter in the C1 witness scenario. -/
def smallFile : FileRec := ⟨"small.txt", "small.txt", "", 1, "", ""⟩

/-- C1 counterexample: one input file of size 10 with `maxFileSize = 5`
is excluded by the Step-1 filter, yet the returned result is entirely
empty: `skippedCount` is 0 (the claim requires 1) and no detail entry
with status `skipped` (or any entry at all) is recorded for it. -/
theorem C1_counterexample :
    (uploadFilesToRepository 3 1000 3 (fun _ _ => .ok ()) [bigFile]
        { maxFileSize := some 5 }).1
      = { successCount := 0, failedCount := 0, skippedCount := 0,
          details := [], totalSize := 0 } := by
  decide

/-- C1 witness: instantiating the amended theorem on a two-file run in
which `bigFile` is excluded: the run reports `skippedCount = 0` and
never attempts `bigFile`. -/
theorem C1_witness :
    (uploadFilesToRepository 3 1000 3 (fun _ _ => .ok ()) [bigFile, smallFile]
        { maxFileSize := some 5 }).1.skippedCount = 0
    ∧ bigFile ∉ (uploadFilesToRepository 3 1000 3 (fun _ _ => .ok ())
        [bigFile, smallFile] { maxFileSize := some 5 }).2 := by
  have h := C1_skipped_never_counted 3 1000 3 (fun _ _ => .ok ())
    [bigFile, smallFile] { maxFileSize := some 5 }
  refine ⟨h.1, fun hmem => ?_⟩
  have hf := h.2.2 bigFile hmem
  revert hf
  decide

/-! ## Claim C2: the orchestrator `createRepositoryAndUploadFiles`

The whole method body sits in one `try { ... } catch (error) { return
{ success: false, error: error.message, ... } }`.  The repository
creation, the readiness wait, the batched upload and (unless
`options.createReadme === false`) the README upload are `await`ed inside
the `try`; their outcomes are supplied by an `OrchEnv` oracle. -/

/-- The repository object returned by the creation call (fields used by
the orchestrator). -/
structure RepoData where
  name : String
  html_url : String
deriving Repr, DecidableEq

/-- A character accepted by the repo-name rule `^[a-zA-Z0-9._-]+$`. -/
def validRepoChar (c : Char) : Bool :=
  ('a' ≤ c && c ≤ 'z') || ('A' ≤ c && c ≤ 'Z') || ('0' ≤ c && c ≤ '9')
  || c = '.' || c = '_' || c = '-'

/-- `GitHubAgent.validateInput`. -/
def validateInput (folderName : String) (files : List FileRec) :
    Except JsError Unit :=
  if folderName.isEmpty then .error ⟨"文件夹名称不能为空", none⟩
  else if files.isEmpty then .error ⟨"文件列表不能为空", none⟩
  else if !(folderName.data.all validRepoChar) then
    .error ⟨"仓库名称包含无效字符", none⟩
  else if folderName.length > 100 then
    .error ⟨"仓库名称过长（最大100字符）", none⟩
  else .ok ()

/-- Orchestrator options (`options.createReadme` is compared with
`!== false`, so only an explicit `false` disables the README step). -/
structure OrchOptions where
  createReadme : Option Bool := none
  filter : FilterOptions := {}

/-- Outcomes of the remote calls the orchestrator awaits. -/
structure OrchEnv where
  createRepo : Except JsError RepoData
  ready : Except JsError Unit
  attempt : FileRec → Nat → Except JsError Unit
  readme : Except JsError Unit

/-- The object `createRepositoryAndUploadFiles` returns: the success
shape carries the repository and the upload counts, the catch-produced
failure shape carries only the error message. -/
structure RunResult where
  success : Bool
  repository : Option RepoData
  uploadResults : Option UploadResults
  error : Option String
deriving Repr, DecidableEq

/-- `GitHubAgent.createRepositoryAndUploadFiles`.  Any error thrown by
a step — including the README upload — reaches the surrounding `catch`
and produces the failure result. -/
def createRepositoryAndUploadFiles (batchSize retryDelay maxRetries : Nat)
    (env : OrchEnv) (folderName : String) (files : List FileRec)
    (opts : OrchOptions) : RunResult :=
  match validateInput folderName files with
  | .error e => ⟨false, none, none, some e.message⟩
  | .ok _ =>
    match env.createRepo with
    | .error e => ⟨false, none, none, some e.message⟩
    | .ok repo =>
      match env.ready with
      | .error e => ⟨false, none, none, some e.message⟩
      | .ok _ =>
        let ur := (uploadFilesToRepository batchSize retryDelay maxRetries
          env.attempt files opts.filter).1
        if opts.createReadme = some false then
          ⟨true, some repo, some ur, none⟩
        else
          match env.readme with
          | .error e => ⟨false, none, none, some e.message⟩
          | .ok _ => ⟨true, some repo, some ur, none⟩

/-- C2 (amended): when validation, repository creation, the readiness
wait and the batched upload all complete but the README upload fails,
the orchestrator returns the *failure* shape: `success = false` and no
repository descriptor or upload counts — the README failure is not
swallowed. -/
theorem C2_readme_failure_fails_run (batchSize retryDelay maxRetries : Nat)
    (env : OrchEnv) (folderName : String) (files : List FileRec)
    (opts : OrchOptions) (repo : RepoData) (e : JsError)
    (hv : validateInput folderName files = .ok ())
    (hc : env.createRepo = .ok repo) (hr : env.ready = .ok ())
    (hread : opts.createReadme ≠ some false) (he : env.readme = .error e) :
    createRepositoryAndUploadFiles batchSize retryDelay maxRetries env
        folderName files opts
      = ⟨false, none, none, some e.message⟩ := by
  unfold createRepositoryAndUploadFiles
  rw [hv, hc, hr, he]
  simp [hread]

/-- The environment of the C2 scenarios: every remote step succeeds
except the README upload. -/
def envReadmeFail : OrchEnv :=
  ⟨.ok ⟨"proj", "https://github.com/me/proj"⟩, .ok (), fun _ _ => .ok (),
    .error ⟨"Validation Failed", some 422⟩⟩

/-- C2 counterexample: repository creation, readiness and the upload of
the single file all succeed, only the README upload fails — yet the run
returns `success = false` with no repository descriptor (the claim
requires a success result carrying the repository and the counts). -/
theorem C2_counterexample :
    (createRepositoryAndUploadFiles 3 1000 3 envReadmeFail "proj"
        [smallFile] {}).success = false
    ∧ (createRepositoryAndUploadFiles 3 1000 3 envReadmeFail "proj"
        [smallFile] {}).repository = none := by
  decide

/-- C2 witness: the amended theorem applied to the concrete
one-file run. -/
theorem C2_witness :
    createRepositoryAndUploadFiles 3 1000 3 envReadmeFail "proj"
        [smallFile] {}
      = ⟨false, none, none, some "Validation Failed"⟩ :=
  C2_readme_failure_fails_run 3 1000 3 envReadmeFail "proj" [smallFile] {}
    ⟨"proj", "https://github.com/me/proj"⟩ ⟨"Validation Failed", some 422⟩
    rfl rfl rfl (by decide) rfl

/-! ## Claim C9: `GitHubAgent.waitForRepositoryReady`

The loop polls `GET /repos/{owner}/{repo}` while
`Date.now() - startTime < maxWaitTime`; a 404 means "not created yet"
and is followed by `await this.delay(1000)`; any other error is
rethrown; once the loop condition fails the method throws the timeout
error.  Lookups are modelled as instantaneous, so the elapsed time
before poll `k` is `1000 * k`. -/

/-- Outcome of one status lookup. -/
inductive LookupOutcome where
  | ok
  | notFound
  | err (e : JsError)
deriving Repr, DecidableEq

/-- Outcome of the readiness wait. -/
inductive ReadyOutcome where
  | ready
  | timeout
  | fatal (e : JsError)
deriving Repr, DecidableEq

/-- The polling loop; `k` is the 0-based poll index (elapsed time
`1000 * k` ms), `fuel` bounds the recursion and is chosen large enough
that it never runs out before the wall-clock budget `m` does. -/
def waitReadyAux (lookup : Nat → LookupOutcome) (m : Nat) :
    Nat → Nat → ReadyOutcome
  | 0, _ => .timeout
  | fuel + 1, k =>
    if 1000 * k < m then
      match lookup k with
      | .ok => .ready
      | .err e => .fatal e
      | .notFound => waitReadyAux lookup m fuel (k + 1)
    else .timeout

/-- `GitHubAgent.waitForRepositoryReady` with budget `m` ms
(default 30000 in the source). -/
def waitForRepositoryReady (lookup : Nat → LookupOutcome) (m : Nat) :
    ReadyOutcome :=
  waitReadyAux lookup m (m / 1000 + 1) 0

/-- Characterization of the timeout outcome: with adequate fuel, the
loop times out exactly when every poll inside the budget answered
`notFound`. -/
theorem waitReadyAux_timeout (lookup : Nat → LookupOutcome) (m : Nat) :
    ∀ (fuel k : Nat), m ≤ 1000 * k + 1000 * fuel →
      (waitReadyAux lookup m fuel k = .timeout ↔
        ∀ j, k ≤ j → 1000 * j < m → lookup j = .notFound) := by
  intro fuel
  induction fuel with
  | zero =>
    intro k hk
    simp only [waitReadyAux]
    constructor
    · intro _ j hj hjm
      exfalso
      have : 1000 * k ≤ 1000 * j := by omega
      omega
    · intro _; trivial
  | succ n ih =>
    intro k hk
    by_cases hcond : 1000 * k < m
    · cases hl : lookup k with
      | ok =>
        simp only [waitReadyAux, hcond, if_true, hl]
        constructor
        · intro h; cases h
        · intro h
          have := h k le_rfl hcond
          rw [hl] at this
          cases this
      | err e =>
        simp only [waitReadyAux, hcond, if_true, hl]
        constructor
        · intro h; cases h
        · intro h
          have := h k le_rfl hcond
          rw [hl] at this
          cases this
      | notFound =>
        simp only [waitReadyAux, hcond, if_true, hl]
        rw [ih (k + 1) (by omega)]
        constructor
        · intro h j hj hjm
          rcases Nat.eq_or_lt_of_le hj with rfl | hlt
          · exact hl
          · exact h j hlt hjm
        · intro h j hj hjm
          exact h j (by omega) hjm
    · simp only [waitReadyAux, hcond, if_false]
      constructor
      · intro _ j hj hjm
        exfalso
        have : 1000 * k ≤ 1000 * j := by omega
        omega
      · intro _; trivial

/-- With adequate fuel, if polls `k, …, j-1` answer `notFound` and poll
`j` (still inside the budget) answers `r`, the loop returns `ready`
when `r = ok` and `fatal e` when `r = err e`. -/
theorem waitReadyAux_first_decisive (lookup : Nat → LookupOutcome) (m : Nat) :
    ∀ (fuel k j : Nat), m ≤ 1000 * k + 1000 * fuel → k ≤ j → 1000 * j < m →
      (∀ i, k ≤ i → i < j → lookup i = .notFound) →
      ((lookup j = .ok → waitReadyAux lookup m fuel k = .ready) ∧
       (∀ e, lookup j = .err e → waitReadyAux lookup m fuel k = .fatal e)) := by
  intro fuel
  induction fuel with
  | zero =>
    intro k j hk hkj hjm hprev
    exfalso
    have : 1000 * k ≤ 1000 * j := by omega
    omega
  | succ n ih =>
    intro k j hk hkj hjm hprev
    have hcond : 1000 * k < m := by
      have : 1000 * k ≤ 1000 * j := by omega
      omega
    rcases Nat.eq_or_lt_of_le hkj with rfl | hlt
    · constructor
      · intro hok
        simp only [waitReadyAux, hcond, if_true, hok]
      · intro e herr
        simp only [waitReadyAux, hcond, if_true, herr]
    · have hkNF : lookup k = .notFound := hprev k le_rfl hlt
      have hrec := ih (k + 1) j (by omega) (by omega) hjm
        (fun i hi hij => hprev i (by omega) hij)
      constructor
      · intro hok
        simp only [waitReadyAux, hcond, if_true, hkNF]
        exact hrec.1 hok
      · intro e herr
        simp only [waitReadyAux, hcond, if_true, hkNF]
        exact hrec.2 e herr

/-- C9: the readiness wait raises the timeout error exactly when every
status lookup inside the wall-clock budget answers `404 notFound`; a
run of `notFound` answers followed inside the budget by the first
success completes without error, and a first non-404 failure inside
the budget propagates that error immediately. -/
theorem C9_readiness_poll (lookup : Nat → LookupOutcome) (m : Nat) :
    (waitForRepositoryReady lookup m = .timeout ↔
      ∀ j, 1000 * j < m → lookup j = .notFound)
    ∧ (∀ j, 1000 * j < m → (∀ i, i < j → lookup i = .notFound) →
        lookup j = .ok → waitForRepositoryReady lookup m = .ready)
    ∧ (∀ j e, 1000 * j < m → (∀ i, i < j → lookup i = .notFound) →
        lookup j = .err e → waitForRepositoryReady lookup m = .fatal e) := by
  have hfuel : m ≤ 1000 * 0 + 1000 * (m / 1000 + 1) := by
    have := Nat.div_add_mod m 1000
    have hlt : m % 1000 < 1000 := Nat.mod_lt _ (by omega)
    omega
  refine ⟨?_, ?_, ?_⟩
  · rw [show waitForRepositoryReady lookup m
        = waitReadyAux lookup m (m / 1000 + 1) 0 from rfl]
    rw [waitReadyAux_timeout lookup m (m / 1000 + 1) 0 hfuel]
    constructor
    · intro h j hjm; exact h j (Nat.zero_le j) hjm
    · intro h j hj hjm; exact h j hjm
  · intro j hjm hprev hok
    exact (waitReadyAux_first_decisive lookup m (m / 1000 + 1) 0 j hfuel
      (Nat.zero_le j) hjm (fun i hi hij => hprev i hij)).1 hok
  · intro j e hjm hprev herr
    exact (waitReadyAux_first_decisive lookup m (m / 1000 + 1) 0 j hfuel
      (Nat.zero_le j) hjm (fun i hi hij => hprev i hij)).2 e herr

/-- The spec's scenario probe: `notFound` for polls 0–2, success on
poll 3. -/
def probeLookup (k : Nat) : LookupOutcome :=
  if k < 3 then .notFound else .ok

/-- A probe that never succeeds. -/
def neverLookup (_ : Nat) : LookupOutcome := .notFound

/-- C9 witness: with the default 30000 ms budget, three `notFound`
answers followed by a success complete the wait without error, and a
probe that never succeeds times out. -/
theorem C9_witness :
    waitForRepositoryReady probeLookup 30000 = .ready
    ∧ waitForRepositoryReady neverLookup 30000 = .timeout := by
  constructor
  · exact (C9_readiness_poll probeLookup 30000).2.1 3 (by omega)
      (fun i hi => by simp [probeLookup, hi]) rfl
  · exact (C9_readiness_poll neverLookup 30000).1.mpr (fun j hj => rfl)

/-! ## Claim C10: extensions of dot-less names
(`ZipProcessor.detectMimeType`, `ZipProcessor.generateStatistics`)

`detectMimeType` receives the *full relative path* of the extracted
entry (`this.detectMimeType(relativePath)` in `extractAllFiles`) and
computes `filePath.substring(filePath.lastIndexOf('.') + 1).toLowerCase()`.
`generateStatistics` computes the same substring of `file.name`. -/

/-- The static extension → MIME table of `detectMimeType`. -/
def mimeTypes : List (String × String) :=
  [("js", "application/javascript"), ("json", "application/json"),
   ("html", "text/html"), ("css", "text/css"), ("txt", "text/plain"),
   ("md", "text/markdown"), ("xml", "application/xml"),
   ("pdf", "application/pdf"), ("jpg", "image/jpeg"), ("jpeg", "image/jpeg"),
   ("png", "image/png"), ("gif", "image/gif"), ("svg", "image/svg+xml"),
   ("zip", "application/zip"), ("py", "text/x-python"),
   ("java", "text/x-java-source"), ("cpp", "text/x-c++src"),
   ("c", "text/x-csrc"), ("php", "application/x-httpd-php")]

/-- `ZipProcessor.detectMimeType`. -/
def detectMimeType (filePath : String) : String :=
  (List.lookup (extAfterDot filePath) mimeTypes).getD "application/octet-stream"

/-- One `stats.fileTypes[ext] = (stats.fileTypes[ext] || 0) + 1` update
on the histogram, modelled as an insertion-ordered association list
(JS object keys keep first-insertion order). -/
def bumpKey : List (String × Nat) → String → List (String × Nat)
  | [], k => [(k, 1)]
  | (k', n) :: rest, k =>
    if k' = k then (k', n + 1) :: rest else (k', n) :: bumpKey rest k

/-- The `fileTypes` histogram accumulated by
`ZipProcessor.generateStatistics` (the remaining `Statistics` fields
are not needed by any claim). -/
def generateStatisticsFileTypes (files : List FileRec) : List (String × Nat) :=
  files.foldl (fun m f => bumpKey m (extAfterDot f.name)) []

/-- A dot-free character list has no last-dot position. -/
theorem lastDotPosAux_eq_none (l : List Char) :
    ∀ i : Nat, '.' ∉ l → lastDotPosAux l i = none := by
  induction l with
  | nil => intro i _; rfl
  | cons c rest ih =>
    intro i hmem
    have hc : c ≠ '.' := fun h => hmem (h ▸ List.mem_cons_self c rest)
    have hrest : '.' ∉ rest := fun h => hmem (List.mem_cons_of_mem c h)
    simp only [lastDotPosAux, ih (i + 1) hrest]
    simp [hc]

/-- The bumped key is a key of the bumped histogram. -/
theorem bumpKey_mem (m : List (String × Nat)) (k : String) :
    k ∈ (bumpKey m k).map Prod.fst := by
  induction m with
  | nil => simp [bumpKey]
  | cons p rest ih =>
    rcases p with ⟨k', n⟩
    by_cases h : k' = k
    · simp [bumpKey, h]
    · simp only [bumpKey, h, if_false, List.map_cons, List.mem_cons]
      exact Or.inr ih

/-- Bumping preserves existing keys. -/
theorem bumpKey_mem_mono (m : List (String × Nat)) (k key : String)
    (h : key ∈ m.map Prod.fst) : key ∈ (bumpKey m k).map Prod.fst := by
  induction m with
  | nil => cases h
  | cons p rest ih =>
    rcases p with ⟨k', n⟩
    rcases List.mem_cons.mp h with h1 | h1
    · by_cases hk : k' = k
      · simp [bumpKey, hk, ← h1, hk ▸ h1]
      · simp only [bumpKey, hk, if_false, List.map_cons, List.mem_cons]
        exact Or.inl h1
    · by_cases hk : k' = k
      · simp only [bumpKey, hk, if_true, List.map_cons, List.mem_cons]
        exact Or.inr h1
      · simp only [bumpKey, hk, if_false, List.map_cons, List.mem_cons]
        exact Or.inr (ih h1)

/-- A key contributed by any processed file (or already present in the
accumulator) is a key of the final histogram. -/
theorem foldl_bumpKey_mem (key : String) :
    ∀ (files : List FileRec) (acc : List (String × Nat)),
      (key ∈ acc.map Prod.fst ∨ ∃ f ∈ files, extAfterDot f.name = key) →
      key ∈ (files.foldl (fun m f => bumpKey m (extAfterDot f.name)) acc).map
        Prod.fst := by
  intro files
  induction files with
  | nil =>
    intro acc h
    rcases h with h | ⟨f, hf, _⟩
    · exact h
    · cases hf
  | cons g rest ih =>
    intro acc h
    show key ∈ (rest.foldl (fun m f => bumpKey m (extAfterDot f.name))
        (bumpKey acc (extAfterDot g.name))).map Prod.fst
    rcases h with h | ⟨f, hf, hkey⟩
    · exact ih _ (Or.inl (bumpKey_mem_mono acc _ key h))
    · rcases List.mem_cons.mp hf with rfl | hf'
      · exact ih _ (Or.inl (hkey ▸ bumpKey_mem acc (extAfterDot f.name)))
      · exact ih _ (Or.inr ⟨f, hf', hkey⟩)

/-- C10 counterexample: the extracted file at path `dir/json` has name
`json` (no dot), and the MIME table has an entry keyed by that whole
name — but `detectMimeType`, invoked on the full relative path, falls
back to the default type instead of returning it. -/
theorem C10_counterexample :
    detectMimeType "dir/json" = "application/octet-stream"
    ∧ List.lookup "json" mimeTypes = some "application/json" := by
  decide

/-- C10 (amended): the whole-name-as-extension behaviour holds for the
*path* in MIME detection and for the *name* in the statistics: when the
full path contains no `'.'`, `detectMimeType` looks up the entire
lowercased path (so a root-level file literally named `json`, whose
path equals its name, gets `application/json`); and for every extracted
file whose name contains no `'.'`, `generateStatistics` counts the
whole lowercased name as a key of the `fileTypes` histogram. -/
theorem C10_extensionless_names :
    (∀ p : String, '.' ∉ p.data →
      detectMimeType p
        = (List.lookup (lowerStr p) mimeTypes).getD "application/octet-stream")
    ∧ (∀ (files : List FileRec) (f : FileRec), f ∈ files →
        '.' ∉ f.name.data →
        lowerStr f.name ∈ (generateStatisticsFileTypes files).map Prod.fst) := by
  constructor
  · intro p hp
    unfold detectMimeType extAfterDot
    rw [show lastDotPos p.data = none from lastDotPosAux_eq_none p.data 0 hp]
  · intro files f hf hname
    have hkey : extAfterDot f.name = lowerStr f.name := by
      unfold extAfterDot
      rw [show lastDotPos f.name.data = none from
        lastDotPosAux_eq_none f.name.data 0 hname]
    exact foldl_bumpKey_mem (lowerStr f.name) files []
      (Or.inr ⟨f, hf, hkey⟩)

/-- A file literally named `json` at the archive root. -/
def jsonFile : FileRec := ⟨"json", "json", "", 4, "", "application/json"⟩

/-- C10 witness: for the root-level file named `json` (path = name, no
dot), MIME detection returns `application/json` and the histogram of a
one-file archive has the whole name as a key. -/
theorem C10_witness :
    detectMimeType "json" = "application/json"
    ∧ "json" ∈ (generateStatisticsFileTypes [jsonFile]).map Prod.fst := by
  have h := C10_extensionless_names
  constructor
  · rw [h.1 "json" (by decide)]
    rfl
  · have h2 := h.2 [jsonFile] jsonFile (by decide) (by decide)
    have hl : lowerStr "json" = "json" := by decide
    rw [show jsonFile.name = "json" from rfl, hl] at h2
    exact h2

/-! ## Claim C8: `GitHubAgent.enforceRateLimit`

The source is

```
async enforceRateLimit() {
  const now = Date.now();
  const timeSinceLastRequest = now - this.lastRequestTime;
  if (timeSinceLastRequest < this.rateLimitDelay) {
    await this.delay(this.rateLimitDelay - timeSinceLastRequest);
  }
  this.lastRequestTime = Date.now();
}
```

A call reads the shared `lastRequestTime` synchronously, *then* (on the
slow path) suspends at the `await`, and only after resuming writes the
new timestamp.  Under the JS event loop, everything between two `await`s
is atomic, but the read and the write of `lastRequestTime` are separated
by the `await` — two overlapping callers can therefore both read the
same stale timestamp.  Timestamps are `Nat` milliseconds and are
monotone (`lastRequestTime ≤ now` in every run considered). -/

/-- The sleep a call performs: `rateLimitDelay - timeSinceLastRequest`
on the slow path, 0 otherwise. -/
def rlWait (d last now : Nat) : Nat :=
  if now - last < d then d - (now - last) else 0

/-- Completion time of an `enforceRateLimit` call that reads `last` at
time `now`: resume time of its sleep.  On resume the call stores this
value into `lastRequestTime`. -/
def rlCompletion (d last now : Nat) : Nat := now + rlWait d last now

/-- Two overlapping callers under the interleaving
read A → read B → resume/write A → resume/write B: both synchronous
read segments run before either `await` resolves, so B still observes
the same `last` as A. -/
def twoConcurrentCompletions (d last tA tB : Nat) : Nat × Nat :=
  (rlCompletion d last tA, rlCompletion d last tB)

/-- C8 counterexample: with `rateLimitDelay = 100` and a previous
acquisition recorded at `last = 100`, two callers that both enter
`enforceRateLimit` at time 150 both observe the stale timestamp 100,
both sleep 50 ms, and both complete at time 200 — 0 ms apart, violating
the claimed minimum spacing of 100 ms. -/
theorem C8_counterexample :
    (twoConcurrentCompletions 100 100 150 150).1 = 200
    ∧ (twoConcurrentCompletions 100 100 150 150).2 = 200
    ∧ (twoConcurrentCompletions 100 100 150 150).2
        - (twoConcurrentCompletions 100 100 150 150).1 < 100 := by
  decide

/-- Completion times of a *serialized* sequence of calls: each call
starts only after the previous one completed and wrote its timestamp
(initial timestamp `last`, invocation times `ts`). -/
def rlSequential (d : Nat) : Nat → List Nat → List Nat
  | _, [] => []
  | last, t :: ts =>
    rlCompletion d last t :: rlSequential d (rlCompletion d last t) ts

/-- Validity of a serialized schedule: every call is invoked no earlier
than the stored timestamp it observes (which is the previous call's
completion time). -/
def seqValid (d : Nat) : Nat → List Nat → Bool
  | _, [] => true
  | last, t :: ts => decide (last ≤ t) && seqValid d (rlCompletion d last t) ts

/-- A single call completes at least `d` after the timestamp it
observed. -/
theorem rlCompletion_ge (d last t : Nat) (h : last ≤ t) :
    last + d ≤ rlCompletion d last t := by
  unfold rlCompletion rlWait
  split <;> omega

/-- C8 (amended): the minimum-spacing guarantee does hold for
*serialized* callers: in any valid sequential schedule, consecutive
completions of `enforceRateLimit` are at least `rateLimitDelay` apart.
(Under concurrent callers the read/wait/update triple is not atomic and
the guarantee fails.) -/
theorem C8_sequential_spacing (d : Nat) :
    ∀ (ts : List Nat) (last : Nat), seqValid d last ts = true →
      List.Chain' (fun a b => a + d ≤ b) (rlSequential d last ts) := by
  intro ts
  induction ts with
  | nil => intro last _; simp [rlSequential]
  | cons t rest ih =>
    intro last hv
    simp only [seqValid, Bool.and_eq_true, decide_eq_true_eq] at hv
    obtain ⟨hle, hv'⟩ := hv
    cases rest with
    | nil => simp [rlSequential]
    | cons t2 rest2 =>
      show List.Chain' _ (rlCompletion d last t ::
        rlCompletion d (rlCompletion d last t) t2 ::
        rlSequential d (rlCompletion d (rlCompletion d last t) t2) rest2)
      rw [List.chain'_cons]
      constructor
      · have hle2 : rlCompletion d last t ≤ t2 := by
          simp only [seqValid, Bool.and_eq_true, decide_eq_true_eq] at hv'
          exact hv'.1
        exact rlCompletion_ge d (rlCompletion d last t) t2 hle2
      · exact ih (rlCompletion d last t) hv'

/-- C8 witness: a concrete serialized 3-call schedule with
`rateLimitDelay = 100` — completions `[100, 200, 300]` are pairwise at
least 100 ms apart. -/
theorem C8_witness :
    List.Chain' (fun a b => a + 100 ≤ b) (rlSequential 100 0 [0, 150, 260]) :=
  C8_sequential_spacing 100 [0, 150, 260] 0 (by decide)

/-! ## Claim C5: `ZipProcessor.generateFolderName`

The source pipeline strips one case-insensitive `.zip` suffix
(regex anchored at the end, `i` flag), replaces every character outside
`[a-zA-Z0-9_-]` by `-` (global), collapses every run of consecutive
dashes to a single dash (global), removes one leading and one trailing
dash (the anchored global alternation matches at most once at each
end), and finally lowercases.  It is modelled stage by stage on
character lists; `toLowerCase` is ASCII-only here, matching both the
Lean `Char.toLower` and the behaviour of the regexes involved on the
characters concerned. -/


theorem toNat_ofNat_valid (m : Nat) (h : m < 55296) : (Char.ofNat m).toNat = m := by
  have hv : Nat.isValidChar m := Or.inl h
  simp only [Char.ofNat, hv, dif_pos, Char.ofNatAux, Char.toNat]
  rfl

theorem toLower_of_not_upper (c : Char) (h : ¬(65 ≤ c.toNat ∧ c.toNat ≤ 90)) :
    Char.toLower c = c := by
  show (if c.toNat ≥ 65 ∧ c.toNat ≤ 90 then Char.ofNat (c.toNat + 32) else c) = c
  rw [if_neg h]

theorem toLower_toNat_of_upper (c : Char) (h : 65 ≤ c.toNat ∧ c.toNat ≤ 90) :
    (Char.toLower c).toNat = c.toNat + 32 := by
  show (if c.toNat ≥ 65 ∧ c.toNat ≤ 90 then Char.ofNat (c.toNat + 32) else c).toNat
      = c.toNat + 32
  rw [if_pos h]
  exact toNat_ofNat_valid _ (by omega)

theorem charEq_iff_toNat (c d : Char) : c = d ↔ c.toNat = d.toNat := by
  constructor
  · intro h; rw [h]
  · intro h
    have := congrArg Char.ofNat h
    rwa [Char.ofNat_toNat, Char.ofNat_toNat] at this

def isAllowedChar (c : Char) : Bool :=
  (97 ≤ c.toNat && c.toNat ≤ 122) || (65 ≤ c.toNat && c.toNat ≤ 90)
  || (48 ≤ c.toNat && c.toNat ≤ 57) || c.toNat = 45 || c.toNat = 95

def isLowerAllowed (c : Char) : Bool :=
  (97 ≤ c.toNat && c.toNat ≤ 122) || (48 ≤ c.toNat && c.toNat ≤ 57)
  || c.toNat = 45 || c.toNat = 95

def stripZip (l : List Char) : List Char :=
  if (l.drop (l.length - 4)).map Char.toLower = ['.', 'z', 'i', 'p'] then
    l.take (l.length - 4)
  else l

def replaceDisallowed (l : List Char) : List Char :=
  l.map (fun c => if isAllowedChar c then c else '-')

def collapseDashes : List Char → List Char
  | [] => []
  | [c] => [c]
  | c :: d :: rest =>
    if c = '-' ∧ d = '-' then collapseDashes (d :: rest)
    else c :: collapseDashes (d :: rest)

def dropLeadDash : List Char → List Char
  | [] => []
  | c :: rest => if c = '-' then rest else c :: rest

def dropTrailDash : List Char → List Char
  | [] => []
  | [c] => if c = '-' then [] else [c]
  | c :: d :: rest => c :: dropTrailDash (d :: rest)

def trimDashes (l : List Char) : List Char := dropTrailDash (dropLeadDash l)

def generateFolderNameL (l : List Char) : List Char :=
  (trimDashes (collapseDashes (replaceDisallowed (stripZip l)))).map Char.toLower

def generateFolderName (s : String) : String :=
  String.mk (generateFolderNameL s.data)

def noDoubleDash : List Char → Prop
  | [] => True
  | [_] => True
  | c :: d :: rest => ¬(c = '-' ∧ d = '-') ∧ noDoubleDash (d :: rest)

def headNotDash : List Char → Prop
  | [] => True
  | c :: _ => c ≠ '-'

def lastNotDash : List Char → Prop
  | [] => True
  | [c] => c ≠ '-'
  | _ :: d :: rest => lastNotDash (d :: rest)

theorem lowerAllowed_toLower (c : Char) (h : isAllowedChar c = true) :
    isLowerAllowed (Char.toLower c) = true := by
  simp only [isAllowedChar, Bool.or_eq_true, Bool.and_eq_true,
    decide_eq_true_eq] at h
  by_cases hup : 65 ≤ c.toNat ∧ c.toNat ≤ 90
  · have hl := toLower_toNat_of_upper c hup
    simp only [isLowerAllowed, Bool.or_eq_true, Bool.and_eq_true,
      decide_eq_true_eq]
    omega
  · rw [toLower_of_not_upper c hup]
    simp only [isLowerAllowed, Bool.or_eq_true, Bool.and_eq_true,
      decide_eq_true_eq]
    omega

theorem lowerAllowed_isAllowed (c : Char) (h : isLowerAllowed c = true) :
    isAllowedChar c = true := by
  simp only [isLowerAllowed, Bool.or_eq_true, Bool.and_eq_true,
    decide_eq_true_eq] at h
  simp only [isAllowedChar, Bool.or_eq_true, Bool.and_eq_true,
    decide_eq_true_eq]
  omega

theorem toLower_id_of_lowerAllowed (c : Char) (h : isLowerAllowed c = true) :
    Char.toLower c = c := by
  simp only [isLowerAllowed, Bool.or_eq_true, Bool.and_eq_true,
    decide_eq_true_eq] at h
  exact toLower_of_not_upper c (by omega)

theorem toLower_eq_dash_iff (c : Char) : Char.toLower c = '-' ↔ c = '-' := by
  constructor
  · intro h
    by_cases hup : 65 ≤ c.toNat ∧ c.toNat ≤ 90
    · exfalso
      have h1 := toLower_toNat_of_upper c hup
      rw [h] at h1
      have h2 : ('-' : Char).toNat = 45 := rfl
      omega
    · rwa [toLower_of_not_upper c hup] at h
  · intro h; subst h; rfl

theorem toLower_eq_dot (c : Char) (h : Char.toLower c = '.') : c = '.' := by
  by_cases hup : 65 ≤ c.toNat ∧ c.toNat ≤ 90
  · exfalso
    have h1 := toLower_toNat_of_upper c hup
    rw [h] at h1
    have h2 : ('.' : Char).toNat = 46 := rfl
    omega
  · rwa [toLower_of_not_upper c hup] at h

theorem stripZip_of_no_dot (l : List Char) (h : '.' ∉ l) : stripZip l = l := by
  unfold stripZip
  rw [if_neg]
  intro hc
  have hmem : '.' ∈ (l.drop (l.length - 4)).map Char.toLower := by
    rw [hc]; simp
  rcases List.mem_map.mp hmem with ⟨c, hcmem, hlow⟩
  have hce := toLower_eq_dot c hlow
  subst hce
  exact h (List.drop_subset _ _ hcmem)

theorem replaceDisallowed_allowed (l : List Char) :
    ∀ c ∈ replaceDisallowed l, isAllowedChar c = true := by
  intro c hc
  rcases List.mem_map.mp hc with ⟨a, _, ha⟩
  by_cases h : isAllowedChar a = true
  · rw [if_pos h] at ha; rwa [ha] at h
  · rw [if_neg h] at ha; rw [← ha]; decide

theorem replaceDisallowed_id (l : List Char)
    (h : ∀ c ∈ l, isAllowedChar c = true) : replaceDisallowed l = l := by
  induction l with
  | nil => rfl
  | cons a t ih =>
    show (if isAllowedChar a = true then a else '-') :: replaceDisallowed t
        = a :: t
    rw [if_pos (h a (List.mem_cons_self a t)),
      ih (fun c hc => h c (List.mem_cons_of_mem a hc))]

theorem collapseDashes_cons :
    ∀ (l : List Char) (a : Char), ∃ t, collapseDashes (a :: l) = a :: t := by
  intro l
  induction l with
  | nil => intro a; exact ⟨[], rfl⟩
  | cons b r ih =>
    intro a
    by_cases h : a = '-' ∧ b = '-'
    · obtain ⟨t, ht⟩ := ih b
      refine ⟨t, ?_⟩
      show (if a = '-' ∧ b = '-' then collapseDashes (b :: r)
          else a :: collapseDashes (b :: r)) = a :: t
      rw [if_pos h, ht, h.1, h.2]
    · refine ⟨collapseDashes (b :: r), ?_⟩
      show (if a = '-' ∧ b = '-' then collapseDashes (b :: r)
          else a :: collapseDashes (b :: r)) = a :: collapseDashes (b :: r)
      rw [if_neg h]

theorem noDoubleDash_collapse : ∀ l : List Char, noDoubleDash (collapseDashes l) := by
  intro l
  induction l with
  | nil => exact trivial
  | cons a t ih =>
    cases t with
    | nil => exact trivial
    | cons b r =>
      by_cases h : a = '-' ∧ b = '-'
      · show noDoubleDash (if a = '-' ∧ b = '-' then collapseDashes (b :: r)
            else a :: collapseDashes (b :: r))
        rw [if_pos h]
        exact ih
      · show noDoubleDash (if a = '-' ∧ b = '-' then collapseDashes (b :: r)
            else a :: collapseDashes (b :: r))
        rw [if_neg h]
        obtain ⟨t', ht'⟩ := collapseDashes_cons r b
        rw [ht']
        exact ⟨h, ht' ▸ ih⟩

theorem collapse_subset : ∀ l : List Char, ∀ c ∈ collapseDashes l, c ∈ l := by
  intro l
  induction l with
  | nil => intro c hc; exact hc
  | cons a t ih =>
    cases t with
    | nil => intro c hc; exact hc
    | cons b r =>
      intro c hc
      by_cases h : a = '-' ∧ b = '-'
      · rw [show collapseDashes (a :: b :: r) = collapseDashes (b :: r) by
          show (if a = '-' ∧ b = '-' then collapseDashes (b :: r)
              else a :: collapseDashes (b :: r)) = _
          rw [if_pos h]] at hc
        exact List.mem_cons_of_mem a (ih c hc)
      · rw [show collapseDashes (a :: b :: r) = a :: collapseDashes (b :: r) by
          show (if a = '-' ∧ b = '-' then collapseDashes (b :: r)
              else a :: collapseDashes (b :: r)) = _
          rw [if_neg h]] at hc
        rcases List.mem_cons.mp hc with rfl | hc'
        · exact List.mem_cons_self c _
        · exact List.mem_cons_of_mem a (ih c hc')

theorem collapse_id : ∀ l : List Char, noDoubleDash l → collapseDashes l = l := by
  intro l
  induction l with
  | nil => intro _; rfl
  | cons a t ih =>
    cases t with
    | nil => intro _; rfl
    | cons b r =>
      intro h
      show (if a = '-' ∧ b = '-' then collapseDashes (b :: r)
          else a :: collapseDashes (b :: r)) = a :: b :: r
      rw [if_neg h.1, ih h.2]

theorem noDoubleDash_tail (a : Char) (l : List Char)
    (h : noDoubleDash (a :: l)) : noDoubleDash l := by
  cases l with
  | nil => exact trivial
  | cons b r => exact h.2

theorem dropLeadDash_noDD (l : List Char) (h : noDoubleDash l) :
    noDoubleDash (dropLeadDash l) := by
  cases l with
  | nil => exact trivial
  | cons c rest =>
    show noDoubleDash (if c = '-' then rest else c :: rest)
    by_cases hc : c = '-'
    · rw [if_pos hc]; exact noDoubleDash_tail c rest h
    · rw [if_neg hc]; exact h

theorem dropLeadDash_head (l : List Char) (h : noDoubleDash l) :
    headNotDash (dropLeadDash l) := by
  cases l with
  | nil => exact trivial
  | cons c rest =>
    show headNotDash (if c = '-' then rest else c :: rest)
    by_cases hc : c = '-'
    · rw [if_pos hc]
      cases rest with
      | nil => exact trivial
      | cons d r =>
        show d ≠ '-'
        intro hd
        exact h.1 ⟨hc, hd⟩
    · rw [if_neg hc]
      exact hc

theorem dropLeadDash_subset (l : List Char) :
    ∀ c ∈ dropLeadDash l, c ∈ l := by
  cases l with
  | nil => intro c hc; exact hc
  | cons a rest =>
    intro c hc
    by_cases ha : a = '-'
    · rw [show dropLeadDash (a :: rest) = rest by
        show (if a = '-' then rest else a :: rest) = rest
        rw [if_pos ha]] at hc
      exact List.mem_cons_of_mem a hc
    · rwa [show dropLeadDash (a :: rest) = a :: rest by
        show (if a = '-' then rest else a :: rest) = a :: rest
        rw [if_neg ha]] at hc

theorem dropLeadDash_id (l : List Char) (h : headNotDash l) :
    dropLeadDash l = l := by
  cases l with
  | nil => rfl
  | cons c rest =>
    show (if c = '-' then rest else c :: rest) = c :: rest
    rw [if_neg h]

theorem dropTrailDash_shape (a : Char) (l : List Char) :
    dropTrailDash (a :: l) = [] ∨ ∃ t, dropTrailDash (a :: l) = a :: t := by
  cases l with
  | nil =>
    by_cases ha : a = '-'
    · left
      show (if a = '-' then ([] : List Char) else [a]) = []
      rw [if_pos ha]
    · right
      refine ⟨[], ?_⟩
      show (if a = '-' then ([] : List Char) else [a]) = [a]
      rw [if_neg ha]
  | cons b r => exact Or.inr ⟨dropTrailDash (b :: r), rfl⟩

theorem dropTrailDash_noDD : ∀ l : List Char, noDoubleDash l →
    noDoubleDash (dropTrailDash l) := by
  intro l
  induction l with
  | nil => intro _; exact trivial
  | cons a t ih =>
    cases t with
    | nil =>
      intro _
      show noDoubleDash (if a = '-' then ([] : List Char) else [a])
      by_cases ha : a = '-'
      · rw [if_pos ha]; exact trivial
      · rw [if_neg ha]; exact trivial
    | cons b r =>
      intro h
      show noDoubleDash (a :: dropTrailDash (b :: r))
      rcases dropTrailDash_shape b r with hnil | ⟨t', ht'⟩
      · rw [hnil]; exact trivial
      · rw [ht']
        exact ⟨fun hab => h.1 hab, ht' ▸ ih h.2⟩

theorem dropTrailDash_head (l : List Char) (h : headNotDash l) :
    headNotDash (dropTrailDash l) := by
  cases l with
  | nil => exact trivial
  | cons a t =>
    cases t with
    | nil =>
      show headNotDash (if a = '-' then ([] : List Char) else [a])
      by_cases ha : a = '-'
      · rw [if_pos ha]; exact trivial
      · rw [if_neg ha]; exact ha
    | cons b r =>
      show headNotDash (a :: dropTrailDash (b :: r))
      exact h

theorem dropTrailDash_nil_imp (a : Char) (l : List Char)
    (h : dropTrailDash (a :: l) = []) : a = '-' ∧ l = [] := by
  cases l with
  | nil =>
    by_cases ha : a = '-'
    · exact ⟨ha, rfl⟩
    · exfalso
      rw [show dropTrailDash [a] = [a] by
        show (if a = '-' then ([] : List Char) else [a]) = [a]
        rw [if_neg ha]] at h
      cases h
  | cons b r =>
    exfalso
    have : dropTrailDash (a :: b :: r) = a :: dropTrailDash (b :: r) := rfl
    rw [this] at h
    cases h

theorem dropTrailDash_last : ∀ l : List Char, noDoubleDash l →
    lastNotDash (dropTrailDash l) := by
  intro l
  induction l with
  | nil => intro _; exact trivial
  | cons a t ih =>
    cases t with
    | nil =>
      intro _
      show lastNotDash (if a = '-' then ([] : List Char) else [a])
      by_cases ha : a = '-'
      · rw [if_pos ha]; exact trivial
      · rw [if_neg ha]; exact ha
    | cons b r =>
      intro h
      show lastNotDash (a :: dropTrailDash (b :: r))
      rcases dropTrailDash_shape b r with hnil | ⟨t', ht'⟩
      · rw [hnil]
        show a ≠ '-'
        obtain ⟨hb, _⟩ := dropTrailDash_nil_imp b r hnil
        intro ha
        exact h.1 ⟨ha, hb⟩
      · rw [ht']
        show lastNotDash (b :: t')
        rw [← ht']
        exact ih h.2

theorem dropTrailDash_subset : ∀ l : List Char, ∀ c ∈ dropTrailDash l, c ∈ l := by
  intro l
  induction l with
  | nil => intro c hc; exact hc
  | cons a t ih =>
    cases t with
    | nil =>
      intro c hc
      by_cases ha : a = '-'
      · rw [show dropTrailDash [a] = [] by
          show (if a = '-' then ([] : List Char) else [a]) = []
          rw [if_pos ha]] at hc
        cases hc
      · rwa [show dropTrailDash [a] = [a] by
          show (if a = '-' then ([] : List Char) else [a]) = [a]
          rw [if_neg ha]] at hc
    | cons b r =>
      intro c hc
      have : dropTrailDash (a :: b :: r) = a :: dropTrailDash (b :: r) := rfl
      rw [this] at hc
      rcases List.mem_cons.mp hc with rfl | hc'
      · exact List.mem_cons_self c _
      · exact List.mem_cons_of_mem a (ih c hc')

theorem dropTrailDash_id : ∀ l : List Char, lastNotDash l →
    dropTrailDash l = l := by
  intro l
  induction l with
  | nil => intro _; rfl
  | cons a t ih =>
    cases t with
    | nil =>
      intro h
      show (if a = '-' then ([] : List Char) else [a]) = [a]
      rw [if_neg h]
    | cons b r =>
      intro h
      show a :: dropTrailDash (b :: r) = a :: b :: r
      rw [ih h]

theorem noDD_map_toLower : ∀ l : List Char, noDoubleDash l →
    noDoubleDash (l.map Char.toLower) := by
  intro l
  induction l with
  | nil => intro _; exact trivial
  | cons a t ih =>
    cases t with
    | nil => intro _; exact trivial
    | cons b r =>
      intro h
      show noDoubleDash (Char.toLower a :: Char.toLower b :: List.map Char.toLower r)
      refine ⟨?_, ih h.2⟩
      intro hab
      exact h.1 ⟨(toLower_eq_dash_iff a).mp hab.1, (toLower_eq_dash_iff b).mp hab.2⟩

theorem headNotDash_map (l : List Char) (h : headNotDash l) :
    headNotDash (l.map Char.toLower) := by
  cases l with
  | nil => exact trivial
  | cons a t =>
    show Char.toLower a ≠ '-'
    intro ha
    exact h ((toLower_eq_dash_iff a).mp ha)

theorem lastNotDash_map : ∀ l : List Char, lastNotDash l →
    lastNotDash (l.map Char.toLower) := by
  intro l
  induction l with
  | nil => intro _; exact trivial
  | cons a t ih =>
    cases t with
    | nil =>
      intro h
      show Char.toLower a ≠ '-'
      intro ha
      exact h ((toLower_eq_dash_iff a).mp ha)
    | cons b r =>
      intro h
      show lastNotDash (Char.toLower b :: List.map Char.toLower r)
      exact ih h

theorem map_toLower_id (l : List Char)
    (h : ∀ c ∈ l, isLowerAllowed c = true) : l.map Char.toLower = l := by
  induction l with
  | nil => rfl
  | cons a t ih =>
    show Char.toLower a :: t.map Char.toLower = a :: t
    rw [toLower_id_of_lowerAllowed a (h a (List.mem_cons_self a t)),
      ih (fun c hc => h c (List.mem_cons_of_mem a hc))]

theorem generateFolderNameL_chars (l : List Char) :
    ∀ c ∈ generateFolderNameL l, isLowerAllowed c = true := by
  intro c hc
  rcases List.mem_map.mp hc with ⟨a, ha, rfl⟩
  have h1 : a ∈ collapseDashes (replaceDisallowed (stripZip l)) :=
    dropLeadDash_subset _ a (dropTrailDash_subset _ a ha)
  have h2 := collapse_subset _ a h1
  have h3 := replaceDisallowed_allowed _ a h2
  exact lowerAllowed_toLower a h3

theorem generateFolderNameL_noDD (l : List Char) :
    noDoubleDash (generateFolderNameL l) :=
  noDD_map_toLower _
    (dropTrailDash_noDD _ (dropLeadDash_noDD _ (noDoubleDash_collapse _)))

theorem generateFolderNameL_head (l : List Char) :
    headNotDash (generateFolderNameL l) :=
  headNotDash_map _
    (dropTrailDash_head _ (dropLeadDash_head _ (noDoubleDash_collapse _)))

theorem generateFolderNameL_last (l : List Char) :
    lastNotDash (generateFolderNameL l) :=
  lastNotDash_map _
    (dropTrailDash_last _ (dropLeadDash_noDD _ (noDoubleDash_collapse _)))

theorem generateFolderNameL_idem (l : List Char) :
    generateFolderNameL (generateFolderNameL l) = generateFolderNameL l := by
  have hchars := generateFolderNameL_chars l
  have hnodot : '.' ∉ generateFolderNameL l := by
    intro hdot
    have hbad := hchars '.' hdot
    exact absurd hbad (by decide)
  show (trimDashes (collapseDashes (replaceDisallowed
      (stripZip (generateFolderNameL l))))).map Char.toLower
    = generateFolderNameL l
  rw [stripZip_of_no_dot _ hnodot,
    replaceDisallowed_id _ (fun c hc => lowerAllowed_isAllowed c (hchars c hc)),
    collapse_id _ (generateFolderNameL_noDD l)]
  show (dropTrailDash (dropLeadDash (generateFolderNameL l))).map Char.toLower
    = generateFolderNameL l
  rw [dropLeadDash_id _ (generateFolderNameL_head l),
    dropTrailDash_id _ (generateFolderNameL_last l)]
  exact map_toLower_id _ hchars

/-- C5 counterexample: `generateFolderName "!!!.zip"` is the empty
string — which does not match `^[a-z0-9_-]+$` — and a 101-character
archive name of `a`s sanitizes to a 101-character result, breaking the
claimed length bound of 100. -/
theorem C5_counterexample :
    generateFolderName "!!!.zip" = ""
    ∧ (generateFolderName (String.mk (List.replicate 101 'a'))).length = 101 := by
  constructor
  · decide
  · decide

/-- C5 (amended): `generateFolderName` is idempotent on every input,
and every character of its output lies in `[a-z0-9_-]`; however the
output may be empty and its length is unbounded (the sanitizer itself
enforces neither non-emptiness nor the 100-character cap — those checks
live in `GitHubAgent.validateInput`). -/
theorem C5_sanitizer_idempotent_charset (s : String) :
    generateFolderName (generateFolderName s) = generateFolderName s
    ∧ (generateFolderName s).data.all isLowerAllowed = true := by
  constructor
  · show String.mk (generateFolderNameL (generateFolderNameL s.data))
      = String.mk (generateFolderNameL s.data)
    rw [generateFolderNameL_idem]
  · rw [List.all_eq_true]
    intro c hc
    exact generateFolderNameL_chars s.data c hc

/-! ## Claim C7: `ZipProcessor.buildFileStructure`

For every extracted file the source splits `file.path` on the slash,
walks the leading components creating directory nodes on demand
(`type:'directory', children:{}, fileCount:0, totalSize:0`),
increments `fileCount`/`totalSize` on each visited directory node, and
finally writes a file node at the last component (overwriting whatever
was there).  When a *file* node is encountered in directory position the
JavaScript code increments `undefined` and then descends into an
`undefined` `children`, so the next property access throws a
`TypeError`; the exception propagates out of `buildFileStructure`, which
the embedding models as `none`.  Children maps are insertion-ordered
association lists, like JS object keys. -/

/-- `path.split(chr(47))` — the slash-separated components, modelled
structurally (an empty path yields `[""]`, like in JS). -/
def splitSlashAux : List Char → List Char → List String
  | [], acc => [String.mk acc.reverse]
  | c :: rest, acc =>
    if c = '/' then String.mk acc.reverse :: splitSlashAux rest []
    else splitSlashAux rest (c :: acc)

def splitPath (p : String) : List String := splitSlashAux p.data []

theorem splitSlashAux_ne_nil : ∀ (l acc : List Char), splitSlashAux l acc ≠ [] := by
  intro l
  induction l with
  | nil => intro acc h; cases h
  | cons c rest ih =>
    intro acc
    by_cases hc : c = '/'
    · show (if c = '/' then String.mk acc.reverse :: splitSlashAux rest []
          else splitSlashAux rest (c :: acc)) ≠ []
      rw [if_pos hc]
      intro h; cases h
    · show (if c = '/' then String.mk acc.reverse :: splitSlashAux rest []
          else splitSlashAux rest (c :: acc)) ≠ []
      rw [if_neg hc]
      exact ih (c :: acc)

inductive FSNode where
  | dir (fileCount : Nat) (totalSize : Nat) (children : List (String × FSNode))
  | file (size : Nat) (mimeType : String)

abbrev Children := List (String × FSNode)

def lookupChild : Children → String → Option FSNode
  | [], _ => none
  | (k, v) :: rest, key => if k = key then some v else lookupChild rest key

def setChild : Children → String → FSNode → Children
  | [], key, v => [(key, v)]
  | (k, w) :: rest, key, v =>
    if k = key then (k, v) :: rest else (k, w) :: setChild rest key v

def insertParts (f : FileRec) : Children → List String → Option Children
  | _, [] => none
  | cs, [fname] => some (setChild cs fname (.file f.size f.mimeType))
  | cs, dname :: d2 :: rest =>
    match lookupChild cs dname with
    | none =>
      match insertParts f [] (d2 :: rest) with
      | none => none
      | some ch2 => some (setChild cs dname (.dir 1 f.size ch2))
    | some (.dir fc ts ch) =>
      match insertParts f ch (d2 :: rest) with
      | none => none
      | some ch2 => some (setChild cs dname (.dir (fc + 1) (ts + f.size) ch2))
    | some (.file _ _) => none

def buildFileStructure (files : List FileRec) : Option Children :=
  files.foldlM (fun cs f => insertParts f cs (splitPath f.path)) []

def lookupPath : Children → List String → Option FSNode
  | _, [] => none
  | cs, [k] => lookupChild cs k
  | cs, k :: k2 :: rest =>
    match lookupChild cs k with
    | some (.dir _ _ ch) => lookupPath ch (k2 :: rest)
    | _ => none

def dirFileCountAt (ocs : Option Children) (q : List String) : Option Nat :=
  match ocs with
  | none => none
  | some cs =>
    match lookupPath cs q with
    | some (.dir fc _ _) => some fc
    | _ => none

def isFileAt (ocs : Option Children) (q : List String) : Bool :=
  match ocs with
  | none => false
  | some cs =>
    match lookupPath cs q with
    | some (.file _ _) => true
    | _ => false

def partsUnder (d : String) : List (List String) → List (List String)
  | [] => []
  | p :: rest =>
    match p with
    | [] => partsUnder d rest
    | k :: tp => if k = d then tp :: partsUnder d rest else partsUnder d rest

def strictPrefixB (q p : List String) : Bool := decide (q <+: p ∧ q ≠ p)

def countUnder (q : List String) (P : List (List String)) : Nat :=
  P.countP (strictPrefixB q)

def StructInvAt (cs : Children) (P : List (List String)) (q : List String) : Prop :=
  ((∃ p ∈ P, q <+: p ∧ q ≠ p) →
      ∃ ts ch, lookupPath cs q = some (.dir (countUnder q P) ts ch))
  ∧ (q ∈ P → ∃ s m, lookupPath cs q = some (.file s m))
  ∧ ((¬ ∃ p ∈ P, q <+: p) → lookupPath cs q = none)

def StructInv (cs : Children) (P : List (List String)) : Prop :=
  ∀ q : List String, q ≠ [] → StructInvAt cs P q

theorem lookupChild_setChild_self (d : String) (v : FSNode) :
    ∀ cs : Children, lookupChild (setChild cs d v) d = some v := by
  intro cs
  induction cs with
  | nil =>
    show lookupChild [(d, v)] d = some v
    simp [lookupChild]
  | cons p rest ih =>
    rcases p with ⟨k, w⟩
    by_cases hk : k = d
    · show lookupChild (if k = d then (k, v) :: rest else (k, w) :: setChild rest d v) d
        = some v
      rw [if_pos hk]
      show (if k = d then some v else lookupChild rest d) = some v
      rw [if_pos hk]
    · show lookupChild (if k = d then (k, v) :: rest else (k, w) :: setChild rest d v) d
        = some v
      rw [if_neg hk]
      show (if k = d then some w else lookupChild (setChild rest d v) d) = some v
      rw [if_neg hk, ih]

theorem lookupChild_setChild_ne (d e : String) (v : FSNode) (hne : e ≠ d) :
    ∀ cs : Children, lookupChild (setChild cs d v) e = lookupChild cs e := by
  intro cs
  induction cs with
  | nil =>
    show (if d = e then some v else none) = none
    rw [if_neg (fun h => hne h.symm)]
  | cons p rest ih =>
    rcases p with ⟨k, w⟩
    by_cases hk : k = d
    · show lookupChild (if k = d then (k, v) :: rest else (k, w) :: setChild rest d v) e
        = lookupChild ((k, w) :: rest) e
      rw [if_pos hk]
      show (if k = e then some v else lookupChild rest e)
        = (if k = e then some w else lookupChild rest e)
      rw [if_neg (hk ▸ fun h => hne h.symm), if_neg (hk ▸ fun h => hne h.symm)]
    · show lookupChild (if k = d then (k, v) :: rest else (k, w) :: setChild rest d v) e
        = lookupChild ((k, w) :: rest) e
      rw [if_neg hk]
      show (if k = e then some w else lookupChild (setChild rest d v) e)
        = (if k = e then some w else lookupChild rest e)
      rw [ih]

theorem lookupPath_cons_dir (cs : Children) (d : String) (q : List String)
    (fc ts : Nat) (ch : Children) (hq : q ≠ [])
    (hlk : lookupChild cs d = some (.dir fc ts ch)) :
    lookupPath cs (d :: q) = lookupPath ch q := by
  cases q with
  | nil => exact absurd rfl hq
  | cons b r => simp only [lookupPath, hlk]

theorem lookupPath_cons_file (cs : Children) (d : String) (q : List String)
    (s : Nat) (m : String) (hq : q ≠ [])
    (hlk : lookupChild cs d = some (.file s m)) :
    lookupPath cs (d :: q) = none := by
  cases q with
  | nil => exact absurd rfl hq
  | cons b r => simp only [lookupPath, hlk]

theorem lookupPath_cons_none (cs : Children) (d : String) (q : List String)
    (hq : q ≠ []) (hlk : lookupChild cs d = none) :
    lookupPath cs (d :: q) = none := by
  cases q with
  | nil => exact absurd rfl hq
  | cons b r => simp only [lookupPath, hlk]

theorem lookupPath_setChild_ne (cs : Children) (d e : String) (v : FSNode)
    (hne : e ≠ d) (q : List String) :
    lookupPath (setChild cs d v) (e :: q) = lookupPath cs (e :: q) := by
  cases q with
  | nil =>
    show lookupChild (setChild cs d v) e = lookupChild cs e
    exact lookupChild_setChild_ne d e v hne cs
  | cons b r =>
    simp only [lookupPath]
    rw [lookupChild_setChild_ne d e v hne cs]

theorem mem_partsUnder (d : String) (q : List String) :
    ∀ P : List (List String), q ∈ partsUnder d P ↔ (d :: q) ∈ P := by
  intro P
  induction P with
  | nil => simp [partsUnder]
  | cons p rest ih =>
    cases p with
    | nil =>
      show q ∈ partsUnder d rest ↔ (d :: q) ∈ [] :: rest
      rw [ih]
      simp
    | cons k tp =>
      by_cases hk : k = d
      · subst hk
        show q ∈ (if k = k then tp :: partsUnder k rest else partsUnder k rest)
          ↔ (k :: q) ∈ (k :: tp) :: rest
        rw [if_pos rfl]
        simp [ih, List.cons.injEq]
      · show q ∈ (if k = d then tp :: partsUnder d rest else partsUnder d rest)
          ↔ (d :: q) ∈ (k :: tp) :: rest
        rw [if_neg hk]
        simp only [ih, List.mem_cons, List.cons.injEq]
        constructor
        · intro h; exact Or.inr h
        · rintro (⟨h1, _⟩ | h)
          · exact absurd h1.symm hk
          · exact h

theorem partsUnder_append (d : String) :
    ∀ P1 P2 : List (List String),
      partsUnder d (P1 ++ P2) = partsUnder d P1 ++ partsUnder d P2 := by
  intro P1 P2
  induction P1 with
  | nil => rfl
  | cons p rest ih =>
    cases p with
    | nil =>
      show partsUnder d (rest ++ P2) = partsUnder d rest ++ partsUnder d P2
      exact ih
    | cons k tp =>
      by_cases hk : k = d
      · show (if k = d then tp :: partsUnder d (rest ++ P2)
            else partsUnder d (rest ++ P2))
          = (if k = d then tp :: partsUnder d rest else partsUnder d rest) ++ _
        rw [if_pos hk, if_pos hk, ih]
        rfl
      · show (if k = d then tp :: partsUnder d (rest ++ P2)
            else partsUnder d (rest ++ P2))
          = (if k = d then tp :: partsUnder d rest else partsUnder d rest) ++ _
        rw [if_neg hk, if_neg hk, ih]

theorem cons_prefix_iff_exists (d : String) (q p : List String) :
    (d :: q) <+: p ↔ ∃ tp, p = d :: tp ∧ q <+: tp := by
  cases p with
  | nil =>
    simp [List.prefix_nil]
  | cons k tp =>
    rw [List.cons_prefix_cons]
    constructor
    · rintro ⟨rfl, h⟩
      exact ⟨tp, rfl, h⟩
    · rintro ⟨tp', heq, h⟩
      injection heq with h1 h2
      subst h1
      subst h2
      exact ⟨rfl, h⟩

theorem strictPrefixB_cons (d : String) (q tp : List String) :
    strictPrefixB (d :: q) (d :: tp) = strictPrefixB q tp := by
  apply decide_eq_decide.mpr
  rw [List.cons_prefix_cons]
  simp [List.cons.injEq]

theorem strictPrefixB_nil (dq : List String) :
    strictPrefixB dq [] = false := by
  apply decide_eq_false
  rintro ⟨hpre, hne⟩
  exact hne (List.prefix_nil.mp hpre)

theorem strictPrefixB_head_ne (d k : String) (q tp : List String) (hk : k ≠ d) :
    strictPrefixB (d :: q) (k :: tp) = false := by
  apply decide_eq_false
  rintro ⟨hpre, _⟩
  rw [List.cons_prefix_cons] at hpre
  exact hk hpre.1.symm

theorem countUnder_append (q : List String) (P1 P2 : List (List String)) :
    countUnder q (P1 ++ P2) = countUnder q P1 + countUnder q P2 :=
  List.countP_append _ _ _

theorem countUnder_cons_key (d : String) (q : List String) :
    ∀ P : List (List String),
      countUnder (d :: q) P = countUnder q (partsUnder d P) := by
  intro P
  induction P with
  | nil => rfl
  | cons p rest ih =>
    cases p with
    | nil =>
      show List.countP _ ([] :: rest) = countUnder q (partsUnder d rest)
      rw [List.countP_cons, strictPrefixB_nil]
      simpa using ih
    | cons k tp =>
      by_cases hk : k = d
      · subst hk
        show List.countP _ ((k :: tp) :: rest)
          = countUnder q (if k = k then tp :: partsUnder k rest else partsUnder k rest)
        rw [if_pos rfl]
        show List.countP _ ((k :: tp) :: rest) = List.countP _ (tp :: partsUnder k rest)
        rw [List.countP_cons, List.countP_cons, strictPrefixB_cons]
        congr 1
      · show List.countP _ ((k :: tp) :: rest)
          = countUnder q (if k = d then tp :: partsUnder d rest else partsUnder d rest)
        rw [if_neg hk, List.countP_cons, strictPrefixB_head_ne d k q tp hk]
        simpa using ih

theorem exists_prefix_under (d : String) (q : List String)
    (P : List (List String)) :
    (∃ p ∈ P, (d :: q) <+: p) ↔ (∃ tp ∈ partsUnder d P, q <+: tp) := by
  constructor
  · rintro ⟨p, hp, hpre⟩
    rcases (cons_prefix_iff_exists d q p).mp hpre with ⟨tp, rfl, hq⟩
    exact ⟨tp, (mem_partsUnder d tp P).mpr hp, hq⟩
  · rintro ⟨tp, htp, hq⟩
    exact ⟨d :: tp, (mem_partsUnder d tp P).mp htp,
      (cons_prefix_iff_exists d q (d :: tp)).mpr ⟨tp, rfl, hq⟩⟩

theorem exists_strict_under (d : String) (q : List String)
    (P : List (List String)) :
    (∃ p ∈ P, (d :: q) <+: p ∧ (d :: q) ≠ p)
      ↔ (∃ tp ∈ partsUnder d P, q <+: tp ∧ q ≠ tp) := by
  constructor
  · rintro ⟨p, hp, hpre, hne⟩
    rcases (cons_prefix_iff_exists d q p).mp hpre with ⟨tp, rfl, hq⟩
    refine ⟨tp, (mem_partsUnder d tp P).mpr hp, hq, ?_⟩
    intro h
    exact hne (by rw [h])
  · rintro ⟨tp, htp, hq, hne⟩
    refine ⟨d :: tp, (mem_partsUnder d tp P).mp htp,
      (cons_prefix_iff_exists d q (d :: tp)).mpr ⟨tp, rfl, hq⟩, ?_⟩
    intro h
    injection h with _ h2
    exact hne h2

theorem structInv_cases (P : List (List String)) (q : List String) :
    (∃ p ∈ P, q <+: p ∧ q ≠ p) ∨ q ∈ P ∨ (¬ ∃ p ∈ P, q <+: p) := by
  by_cases h : ∃ p ∈ P, q <+: p
  · rcases h with ⟨p, hp, hpre⟩
    by_cases he : q = p
    · subst he
      exact Or.inr (Or.inl hp)
    · exact Or.inl ⟨p, hp, hpre, he⟩
  · exact Or.inr (Or.inr h)

theorem structInv_empty : StructInv [] [] := by
  intro q hq
  refine ⟨?_, ?_, ?_⟩
  · rintro ⟨p, hp, _⟩
    cases hp
  · intro h
    cases h
  · intro _
    cases q with
    | nil => exact absurd rfl hq
    | cons a r =>
      cases r with
      | nil => rfl
      | cons b r2 => rfl

theorem lookup_dir_inv (cs : Children) (P : List (List String))
    (hinv : StructInv cs P) (q : List String) (hq : q ≠ [])
    (fc ts : Nat) (ch : Children)
    (h : lookupPath cs q = some (.dir fc ts ch)) :
    (∃ p ∈ P, q <+: p ∧ q ≠ p) ∧ fc = countUnder q P := by
  rcases structInv_cases P q with hA | hB | hC
  · obtain ⟨ts2, ch2, hl⟩ := (hinv q hq).1 hA
    rw [h] at hl
    simp only [Option.some.injEq, FSNode.dir.injEq] at hl
    exact ⟨hA, hl.1⟩
  · obtain ⟨s, m, hl⟩ := (hinv q hq).2.1 hB
    rw [h] at hl
    simp at hl
  · have hl := (hinv q hq).2.2 hC
    rw [h] at hl
    simp at hl

theorem lookup_file_inv (cs : Children) (P : List (List String))
    (hinv : StructInv cs P) (q : List String) (hq : q ≠ [])
    (s : Nat) (m : String)
    (h : lookupPath cs q = some (.file s m)) : q ∈ P := by
  rcases structInv_cases P q with hA | hB | hC
  · obtain ⟨ts2, ch2, hl⟩ := (hinv q hq).1 hA
    rw [h] at hl
    simp at hl
  · exact hB
  · have hl := (hinv q hq).2.2 hC
    rw [h] at hl
    simp at hl

theorem lookup_none_inv (cs : Children) (P : List (List String))
    (hinv : StructInv cs P) (q : List String) (hq : q ≠ [])
    (h : lookupPath cs q = none) : ¬ ∃ p ∈ P, q <+: p := by
  rintro ⟨p, hp, hpre⟩
  by_cases he : q = p
  · obtain ⟨s, m, hl⟩ := (hinv q hq).2.1 (he ▸ hp)
    rw [h] at hl
    cases hl
  · obtain ⟨ts2, ch2, hl⟩ := (hinv q hq).1 ⟨p, hp, hpre, he⟩
    rw [h] at hl
    cases hl

theorem structInv_down (cs : Children) (P : List (List String)) (d : String)
    (fc ts : Nat) (ch : Children)
    (hlk : lookupChild cs d = some (.dir fc ts ch))
    (hinv : StructInv cs P) : StructInv ch (partsUnder d P) := by
  intro q hq
  have hbridge : lookupPath cs (d :: q) = lookupPath ch q :=
    lookupPath_cons_dir cs d q fc ts ch hq hlk
  have hpar := hinv (d :: q) (by simp)
  refine ⟨?_, ?_, ?_⟩
  · intro hstrict
    obtain ⟨ts2, ch2, hl⟩ := hpar.1 ((exists_strict_under d q P).mpr hstrict)
    rw [hbridge, countUnder_cons_key d q P] at hl
    exact ⟨ts2, ch2, hl⟩
  · intro hmem
    obtain ⟨s, m, hl⟩ := hpar.2.1 ((mem_partsUnder d q P).mp hmem)
    rw [hbridge] at hl
    exact ⟨s, m, hl⟩
  · intro hnone
    have hl := hpar.2.2 (fun hx => hnone ((exists_prefix_under d q P).mp hx))
    rwa [hbridge] at hl

theorem countUnder_single_ne (e d : String) (q' t : List String) (he : e ≠ d) :
    countUnder (e :: q') [d :: t] = 0 := by
  show List.countP _ [d :: t] = 0
  rw [List.countP_cons, strictPrefixB_head_ne e d q' t (fun h => he h.symm)]
  rfl

theorem countUnder_single_under (d : String) (t : List String) (ht : t ≠ []) :
    countUnder [d] [d :: t] = 1 := by
  show List.countP _ [d :: t] = 1
  rw [List.countP_cons]
  have h1 : strictPrefixB [d] (d :: t) = true := by
    rw [show ([d] : List String) = d :: ([] : List String) from rfl,
      strictPrefixB_cons]
    apply decide_eq_true
    exact ⟨List.nil_prefix, fun h => ht h.symm⟩
  rw [h1]
  rfl

theorem partsUnder_single (d : String) (t : List String) :
    partsUnder d [d :: t] = [t] := by
  show (if d = d then t :: partsUnder d [] else partsUnder d []) = [t]
  rw [if_pos rfl]
  rfl

theorem partsUnder_eq_nil (d : String) (P : List (List String))
    (h : ¬ ∃ p ∈ P, [d] <+: p) : partsUnder d P = [] := by
  rw [List.eq_nil_iff_forall_not_mem]
  intro tp htp
  exact h ⟨d :: tp, (mem_partsUnder d tp P).mp htp,
    List.cons_prefix_cons.mpr ⟨rfl, List.nil_prefix⟩⟩

theorem countUnder_eq_zero (d : String) (P : List (List String))
    (h : ¬ ∃ p ∈ P, [d] <+: p) : countUnder [d] P = 0 := by
  rw [show countUnder [d] P = List.countP (strictPrefixB [d]) P from rfl,
    List.countP_eq_zero]
  intro p hp
  intro hb
  rcases of_decide_eq_true hb with ⟨hpre, _⟩
  exact h ⟨p, hp, hpre⟩

theorem structInvAt_append_other (cs cs2 : Children) (P : List (List String))
    (d : String) (t : List String) (e : String) (q' : List String) (he : e ≠ d)
    (hlp : lookupPath cs2 (e :: q') = lookupPath cs (e :: q'))
    (hold : StructInvAt cs P (e :: q')) :
    StructInvAt cs2 (P ++ [d :: t]) (e :: q') := by
  have hpre_false : ¬ (e :: q') <+: (d :: t) := by
    intro h
    rw [List.cons_prefix_cons] at h
    exact he h.1
  refine ⟨?_, ?_, ?_⟩
  · rintro ⟨p, hp, hpre, hne⟩
    rcases List.mem_append.mp hp with hp | hp
    · obtain ⟨ts2, ch2, hl⟩ := hold.1 ⟨p, hp, hpre, hne⟩
      refine ⟨ts2, ch2, ?_⟩
      rw [hlp, hl, countUnder_append, countUnder_single_ne e d q' t he,
        Nat.add_zero]
    · rw [List.mem_singleton] at hp
      subst hp
      exact absurd hpre hpre_false
  · intro hmem
    rcases List.mem_append.mp hmem with hp | hp
    · obtain ⟨s, m, hl⟩ := hold.2.1 hp
      refine ⟨s, m, ?_⟩
      rw [hlp, hl]
    · rw [List.mem_singleton] at hp
      injection hp with h1 _
      exact absurd h1 he
  · intro hnone
    have hnP : ¬ ∃ p ∈ P, (e :: q') <+: p := by
      rintro ⟨p, hp, hpre⟩
      exact hnone ⟨p, List.mem_append.mpr (Or.inl hp), hpre⟩
    rw [hlp]
    exact hold.2.2 hnP

theorem structInvAt_append_key (cs2 : Children) (P : List (List String))
    (d : String) (t : List String) (ht : t ≠ [])
    (fcnew tsnew : Nat) (ch2 : Children)
    (hself : lookupChild cs2 d = some (.dir fcnew tsnew ch2))
    (hfc : fcnew = countUnder [d] (P ++ [d :: t]))
    (hchild : StructInv ch2 (partsUnder d (P ++ [d :: t])))
    (hnotmem : [d] ∉ P) :
    ∀ q' : List String, StructInvAt cs2 (P ++ [d :: t]) (d :: q') := by
  intro q'
  cases q' with
  | nil =>
    refine ⟨?_, ?_, ?_⟩
    · intro _
      refine ⟨tsnew, ch2, ?_⟩
      show lookupChild cs2 d = _
      rw [hself, hfc]
    · intro hmem
      exfalso
      rcases List.mem_append.mp hmem with hp | hp
      · exact hnotmem hp
      · rw [List.mem_singleton] at hp
        injection hp with _ h2
        exact ht h2.symm
    · intro hC
      exact absurd ⟨d :: t,
        List.mem_append.mpr (Or.inr (List.mem_singleton.mpr rfl)),
        List.cons_prefix_cons.mpr ⟨rfl, List.nil_prefix⟩⟩ hC
  | cons e2 q2 =>
    have hlp : lookupPath cs2 (d :: e2 :: q2) = lookupPath ch2 (e2 :: q2) :=
      lookupPath_cons_dir cs2 d (e2 :: q2) fcnew tsnew ch2 (by simp) hself
    have hchildAt := hchild (e2 :: q2) (by simp)
    refine ⟨?_, ?_, ?_⟩
    · intro hA
      obtain ⟨ts3, ch3, hl⟩ :=
        hchildAt.1 ((exists_strict_under d (e2 :: q2) _).mp hA)
      refine ⟨ts3, ch3, ?_⟩
      rw [hlp, countUnder_cons_key]
      exact hl
    · intro hmem
      obtain ⟨s, m, hl⟩ :=
        hchildAt.2.1 ((mem_partsUnder d (e2 :: q2) _).mpr hmem)
      refine ⟨s, m, ?_⟩
      rw [hlp]
      exact hl
    · intro hC
      rw [hlp]
      exact hchildAt.2.2
        (fun hx => hC ((exists_prefix_under d (e2 :: q2) _).mpr hx))

theorem insertParts_inv (f : FileRec) :
    ∀ (parts : List String) (cs : Children) (P : List (List String)),
      parts ≠ [] →
      (∀ p ∈ P, ¬ parts <+: p ∧ ¬ p <+: parts) →
      StructInv cs P →
      ∃ cs2, insertParts f cs parts = some cs2
        ∧ StructInv cs2 (P ++ [parts]) := by
  intro parts
  induction parts with
  | nil => intro cs P h _ _; exact absurd rfl h
  | cons d rest ih =>
    intro cs P _ hcons hinv
    cases rest with
    | nil =>
      refine ⟨setChild cs d (.file f.size f.mimeType), rfl, ?_⟩
      intro q hq
      cases q with
      | nil => exact absurd rfl hq
      | cons e q' =>
        by_cases he : e = d
        · rw [he]
          cases q' with
          | nil =>
            refine ⟨?_, ?_, ?_⟩
            · rintro ⟨p, hp, hpre, hne⟩
              exfalso
              rcases List.mem_append.mp hp with hp | hp
              · exact (hcons p hp).1 hpre
              · rw [List.mem_singleton] at hp
                exact hne hp.symm
            · intro _
              refine ⟨f.size, f.mimeType, ?_⟩
              show lookupChild (setChild cs d (.file f.size f.mimeType)) d = _
              rw [lookupChild_setChild_self]
            · intro hC
              exact absurd ⟨[d],
                List.mem_append.mpr (Or.inr (List.mem_singleton.mpr rfl)),
                List.prefix_refl [d]⟩ hC
          | cons e2 q2 =>
            have hnone : lookupPath (setChild cs d (.file f.size f.mimeType))
                (d :: e2 :: q2) = none := by
              apply lookupPath_cons_file _ d (e2 :: q2) f.size f.mimeType (by simp)
              exact lookupChild_setChild_self d _ cs
            have hsub : ([d] : List String) <+: (d :: e2 :: q2) :=
              List.cons_prefix_cons.mpr ⟨rfl, List.nil_prefix⟩
            refine ⟨?_, ?_, ?_⟩
            · rintro ⟨p, hp, hpre, hne⟩
              exfalso
              rcases List.mem_append.mp hp with hp | hp
              · exact (hcons p hp).1 (hsub.trans hpre)
              · rw [List.mem_singleton] at hp
                subst hp
                rw [List.cons_prefix_cons] at hpre
                have h2 := List.prefix_nil.mp hpre.2
                cases h2
            · intro hmem
              exfalso
              rcases List.mem_append.mp hmem with hp | hp
              · exact (hcons _ hp).1 hsub
              · rw [List.mem_singleton] at hp
                injection hp with _ h2
                cases h2
            · intro _
              exact hnone
        · exact structInvAt_append_other cs _ P d [] e q' he
            (lookupPath_setChild_ne cs d e _ he q') (hinv (e :: q') (by simp))
    | cons d2 rest2 =>
      have htne : (d2 :: rest2 : List String) ≠ [] := by simp
      have hdprefix : ([d] : List String) <+: (d :: d2 :: rest2) :=
        List.cons_prefix_cons.mpr ⟨rfl, List.nil_prefix⟩
      cases hlk : lookupChild cs d with
      | none =>
        have hnotex : ¬ ∃ p ∈ P, [d] <+: p :=
          lookup_none_inv cs P hinv [d] (by simp) hlk
        have hPd : partsUnder d P = [] := partsUnder_eq_nil d P hnotex
        have hcnt : countUnder [d] P = 0 := countUnder_eq_zero d P hnotex
        obtain ⟨ch2, hins, hinv2⟩ :=
          ih [] [] htne (by simp) structInv_empty
        refine ⟨setChild cs d (.dir 1 f.size ch2), ?_, ?_⟩
        · simp only [insertParts, hlk, hins]
        · have hPU : partsUnder d (P ++ [d :: d2 :: rest2]) = [d2 :: rest2] := by
            rw [partsUnder_append, hPd, partsUnder_single]
            rfl
          have hcountd : countUnder [d] (P ++ [d :: d2 :: rest2]) = 1 := by
            rw [countUnder_append, hcnt, countUnder_single_under d _ htne]
          have hself : lookupChild (setChild cs d (.dir 1 f.size ch2)) d
              = some (.dir 1 f.size ch2) := lookupChild_setChild_self d _ cs
          have hnotmem : ([d] : List String) ∉ P := fun hp =>
            hnotex ⟨[d], hp, List.prefix_refl [d]⟩
          have hchild : StructInv ch2 (partsUnder d (P ++ [d :: d2 :: rest2])) := by
            rw [hPU]
            exact hinv2
          intro q hq
          cases q with
          | nil => exact absurd rfl hq
          | cons e q' =>
            by_cases he : e = d
            · rw [he]
              exact structInvAt_append_key _ P d (d2 :: rest2) htne 1 f.size ch2
                hself hcountd.symm hchild hnotmem q'
            · exact structInvAt_append_other cs _ P d (d2 :: rest2) e q' he
                (lookupPath_setChild_ne cs d e _ he q') (hinv (e :: q') (by simp))
      | some node =>
        cases node with
        | file s m =>
          exfalso
          have hmem : ([d] : List String) ∈ P :=
            lookup_file_inv cs P hinv [d] (by simp) s m hlk
          exact (hcons [d] hmem).2 hdprefix
        | dir fc ts ch =>
          obtain ⟨hA, hfc⟩ :=
            lookup_dir_inv cs P hinv [d] (by simp) fc ts ch hlk
          have hchildinv : StructInv ch (partsUnder d P) :=
            structInv_down cs P d fc ts ch hlk hinv
          have hconsc : ∀ tp ∈ partsUnder d P,
              ¬ (d2 :: rest2) <+: tp ∧ ¬ tp <+: (d2 :: rest2) := by
            intro tp htp
            have hp : (d :: tp) ∈ P := (mem_partsUnder d tp P).mp htp
            have hc := hcons (d :: tp) hp
            constructor
            · intro h
              exact hc.1 (List.cons_prefix_cons.mpr ⟨rfl, h⟩)
            · intro h
              exact hc.2 (List.cons_prefix_cons.mpr ⟨rfl, h⟩)
          obtain ⟨ch2, hins, hinv2⟩ :=
            ih ch (partsUnder d P) htne hconsc hchildinv
          refine ⟨setChild cs d (.dir (fc + 1) (ts + f.size) ch2), ?_, ?_⟩
          · simp only [insertParts, hlk, hins]
          · have hPU : partsUnder d (P ++ [d :: d2 :: rest2])
                = partsUnder d P ++ [d2 :: rest2] := by
              rw [partsUnder_append, partsUnder_single]
            have hcountd : countUnder [d] (P ++ [d :: d2 :: rest2]) = fc + 1 := by
              rw [countUnder_append, ← hfc, countUnder_single_under d _ htne]
            have hself : lookupChild (setChild cs d
                  (.dir (fc + 1) (ts + f.size) ch2)) d
                = some (.dir (fc + 1) (ts + f.size) ch2) :=
              lookupChild_setChild_self d _ cs
            have hnotmem : ([d] : List String) ∉ P := fun hp =>
              (hcons [d] hp).2 hdprefix
            have hchild : StructInv ch2
                (partsUnder d (P ++ [d :: d2 :: rest2])) := by
              rw [hPU]
              exact hinv2
            intro q hq
            cases q with
            | nil => exact absurd rfl hq
            | cons e q' =>
              by_cases he : e = d
              · rw [he]
                exact structInvAt_append_key _ P d (d2 :: rest2) htne (fc + 1)
                  (ts + f.size) ch2 hself hcountd.symm hchild hnotmem q'
              · exact structInvAt_append_other cs _ P d (d2 :: rest2) e q' he
                  (lookupPath_setChild_ne cs d e _ he q') (hinv (e :: q') (by simp))

theorem foldInsert_inv :
    ∀ (files : List FileRec) (cs : Children) (P : List (List String)),
      StructInv cs P →
      (∀ f ∈ files, splitPath f.path ≠ []) →
      (∀ f ∈ files, ∀ p ∈ P,
        ¬ splitPath f.path <+: p ∧ ¬ p <+: splitPath f.path) →
      List.Pairwise (fun f g => ¬ splitPath f.path <+: splitPath g.path
        ∧ ¬ splitPath g.path <+: splitPath f.path) files →
      ∃ cs2, List.foldlM (fun cs f => insertParts f cs (splitPath f.path)) cs files
          = some cs2
        ∧ StructInv cs2 (P ++ files.map (fun f => splitPath f.path)) := by
  intro files
  induction files with
  | nil =>
    intro cs P hinv _ _ _
    exact ⟨cs, rfl, by simpa using hinv⟩
  | cons f rest ih =>
    intro cs P hinv hne hdisj hpw
    obtain ⟨cs1, hins, hinv1⟩ := insertParts_inv f (splitPath f.path) cs P
      (hne f (List.mem_cons_self f rest))
      (fun p hp => hdisj f (List.mem_cons_self f rest) p hp)
      hinv
    rcases List.pairwise_cons.mp hpw with ⟨hhead, hpw2⟩
    have hdisj2 : ∀ g ∈ rest, ∀ p ∈ P ++ [splitPath f.path],
        ¬ splitPath g.path <+: p ∧ ¬ p <+: splitPath g.path := by
      intro g hg p hp
      rcases List.mem_append.mp hp with hp | hp
      · exact hdisj g (List.mem_cons_of_mem f hg) p hp
      · rw [List.mem_singleton] at hp
        subst hp
        have hh := hhead g hg
        exact ⟨hh.2, hh.1⟩
    obtain ⟨cs2, hfold, hinv2⟩ := ih cs1 (P ++ [splitPath f.path]) hinv1
      (fun g hg => hne g (List.mem_cons_of_mem f hg)) hdisj2 hpw2
    refine ⟨cs2, ?_, ?_⟩
    · rw [List.foldlM_cons, hins]
      exact hfold
    · have heq : (P ++ [splitPath f.path])
          ++ rest.map (fun f => splitPath f.path)
          = P ++ (f :: rest).map (fun f => splitPath f.path) := by
        rw [List.append_assoc]
        rfl
      rw [heq] at hinv2
      exact hinv2

/-- C7 (amended): for every list of extracted file records whose paths
are tree-consistent — no record's path is a whole-path duplicate or a
directory prefix of another record's path — `buildFileStructure`
succeeds and records, for every ancestor directory `q` of any file,
a directory node whose `fileCount` equals the number of records whose
path lies strictly under `q`. -/
theorem C7_fileCount_invariant (files : List FileRec)
    (hne : ∀ f ∈ files, splitPath f.path ≠ [])
    (hcons : List.Pairwise (fun f g => ¬ splitPath f.path <+: splitPath g.path
      ∧ ¬ splitPath g.path <+: splitPath f.path) files) :
    ∃ cs, buildFileStructure files = some cs
      ∧ ∀ q : List String, q ≠ [] →
          (∃ f ∈ files, q <+: splitPath f.path ∧ q ≠ splitPath f.path) →
          ∃ ts ch, lookupPath cs q
            = some (.dir
                (countUnder q (files.map (fun f => splitPath f.path))) ts ch) := by
  obtain ⟨cs, hfold, hinv⟩ :=
    foldInsert_inv files [] [] structInv_empty hne (by simp) hcons
  refine ⟨cs, hfold, ?_⟩
  intro q hq hex
  have hinv2 : StructInv cs (files.map (fun f => splitPath f.path)) := by
    simpa using hinv
  apply (hinv2 q hq).1
  rcases hex with ⟨f, hf, hpre, hne2⟩
  exact ⟨splitPath f.path, List.mem_map_of_mem _ hf, hpre, hne2⟩

def clobberA : FileRec := ⟨"src/a", "a", "", 1, "src", "application/octet-stream"⟩

def clobberSrc : FileRec := ⟨"src", "src", "", 1, "", "application/octet-stream"⟩

/-- C7 counterexample: the two records `src/a` and `src` have distinct
paths, `["src"]` is a strict directory prefix of the first record's
path, and `buildFileStructure` returns a structure — yet that structure
has *no* directory node `src` at all (the later root-level file `src`
overwrote it, children and counts included), refuting the claimed
fileCount invariant under the pairwise-distinct-paths hypothesis alone. -/
theorem C7_counterexample :
    clobberA.path ≠ clobberSrc.path
    ∧ (buildFileStructure [clobberA, clobberSrc]).isSome = true
    ∧ (["src"] <+: splitPath clobberA.path
        ∧ (["src"] : List String) ≠ splitPath clobberA.path)
    ∧ dirFileCountAt (buildFileStructure [clobberA, clobberSrc]) ["src"] = none
    ∧ isFileAt (buildFileStructure [clobberA, clobberSrc]) ["src"] = true := by
  decide

def srcA : FileRec := ⟨"src/a.js", "a.js", "", 1, "src", "application/javascript"⟩

def srcB : FileRec := ⟨"src/b.js", "b.js", "", 2, "src", "application/javascript"⟩

def srcC : FileRec := ⟨"src/c.css", "c.css", "", 3, "src", "text/css"⟩

def readmeSrc : FileRec :=
  ⟨"README_source.md", "README_source.md", "", 4, "", "text/markdown"⟩

def scenarioFiles : List FileRec := [srcA, srcB, srcC, readmeSrc]

/-- C7 witness: the spec scenario — three files under `src/` plus a
root-level `README_source.md` — instantiates the amended invariant:
the `src` directory node records `fileCount = 3` and the root-level
file keeps a file node. -/
theorem C7_witness :
    dirFileCountAt (buildFileStructure scenarioFiles) ["src"] = some 3
    ∧ isFileAt (buildFileStructure scenarioFiles) ["README_source.md"] = true := by
  obtain ⟨cs, hbuild, hprop⟩ :=
    C7_fileCount_invariant scenarioFiles (by decide) (by decide)
  constructor
  · obtain ⟨ts, ch, hl⟩ := hprop ["src"] (by decide)
      ⟨srcA, by decide, by decide⟩
    rw [hbuild]
    show (match lookupPath cs ["src"] with
      | some (.dir fc _ _) => some fc
      | _ => none) = some 3
    rw [hl]
    have hcnt : countUnder ["src"]
        (scenarioFiles.map (fun f => splitPath f.path)) = 3 := by decide
    rw [hcnt]
  · decide
